import Mathlib

/-!
# Timeloop loop analysis: occupancies, tilings and temporal reuse

A shallow embedding of `src/isl-wrapper/isl-functions.cpp`,
`src/loop-analysis/temporal-analysis.cpp` and
`src/loop-analysis/mapping-to-isl.cpp`.

The integer set library is an external collaborator of these files.  Its
values are embedded by their meaning: an isl map is the set of pairs of
integer tuples it relates, together with the arity of its input and output
tuples and the name of its input tuple.  The name of the input tuple is what
`isl_map_project_out` and `isl_map_insert_dims` on `isl_dim_in` reset and
what `isl_map_intersect_domain` compares besides the arity.  Dimension names
and the name of the output tuple are left out.  An isl call that the library
rejects (a position out of range, two spaces that do not match) yields no
object, `none`; within the loop of `FillFromOccupancy` a missing object is
passed on as the null pointer it is in the source, and a test on a null
pointer answers `isl_bool_error`.
-/

namespace Timeloop

/-! ## Integer sets and maps -/

/-- The dimension kinds the sources pass to isl (`isl_dim_in`, `isl_dim_out`). -/
inductive isl_dim_type where
  | isl_dim_in
  | isl_dim_out
  deriving DecidableEq, Repr

/-- An isl space: the number of input and output dimensions, and the name
of its tuple (`none` when the tuple has no name): of the input tuple for a
map space, of the only tuple for a set space.  A set space has no input
dimension and keeps its dimensions in `n_out`, as in isl. -/
structure IslSpace where
  n_in : Nat
  n_out : Nat
  name : Option String
  deriving DecidableEq, Repr

/-- An isl set: a set of integer tuples of one arity, with the name of its
tuple. -/
structure IslSet where
  n : Nat
  name : Option String
  mem : List Int → Prop
  wf : ∀ x, mem x → x.length = n

/-- An isl map: a relation between integer tuples of fixed arities, with the
name of its input tuple. -/
structure IslMap where
  n_in : Nat
  n_out : Nat
  in_name : Option String
  rel : List Int → List Int → Prop
  wf : ∀ x y, rel x y → x.length = n_in ∧ y.length = n_out

/-- The tuple `x` without its `n` coordinates starting at `first`. -/
def dropDims (x : List Int) (first n : Nat) : List Int :=
  x.take first ++ x.drop (first + n)

/-- The call `isl_map_dim(map, type)`. -/
def isl_map_dim (map : IslMap) : isl_dim_type → Nat
  | .isl_dim_in => map.n_in
  | .isl_dim_out => map.n_out

/-- The call `isl_map_get_space(map)`. -/
def isl_map_get_space (map : IslMap) : IslSpace :=
  ⟨map.n_in, map.n_out, map.in_name⟩

/-- The call `isl_space_domain(space)`: the set space of the input tuple. -/
def isl_space_domain (space : IslSpace) : IslSpace :=
  ⟨0, space.n_in, space.name⟩

/-- The call `isl_map_project_out(map, type, first, n)`: existentially
quantify the `n` dimensions of kind `type` starting at `first`.  The tuple
of kind `type` loses its name.  The library rejects a range that leaves the
tuple. -/
def isl_map_project_out (map : IslMap) (type : isl_dim_type) (first n : Nat) :
    Option IslMap :=
  match type with
  | .isl_dim_in =>
    if h : first + n ≤ map.n_in then
      some ⟨map.n_in - n, map.n_out, none,
        fun x y => ∃ x0, map.rel x0 y ∧ x = dropDims x0 first n,
        by
          rintro x y ⟨x0, h0, rfl⟩
          have hw := map.wf x0 y h0
          refine ⟨?_, hw.2⟩
          simp only [dropDims, List.length_append, List.length_take, List.length_drop]
          omega⟩
    else none
  | .isl_dim_out =>
    if h : first + n ≤ map.n_out then
      some ⟨map.n_in, map.n_out - n, map.in_name,
        fun x y => ∃ y0, map.rel x y0 ∧ y = dropDims y0 first n,
        by
          rintro x y ⟨y0, h0, rfl⟩
          have hw := map.wf x y0 h0
          refine ⟨hw.1, ?_⟩
          simp only [dropDims, List.length_append, List.length_take, List.length_drop]
          omega⟩
    else none

/-- The call `isl_map_insert_dims(map, type, pos, n)`: add `n` unconstrained
dimensions of kind `type` at position `pos`.  The tuple of kind `type` loses
its name. -/
def isl_map_insert_dims (map : IslMap) (type : isl_dim_type) (pos n : Nat) :
    Option IslMap :=
  match type with
  | .isl_dim_in =>
    if pos ≤ map.n_in then
      some ⟨map.n_in + n, map.n_out, none,
        fun x y => x.length = map.n_in + n ∧ map.rel (dropDims x pos n) y,
        fun _ y h => ⟨h.1, (map.wf _ y h.2).2⟩⟩
    else none
  | .isl_dim_out =>
    if pos ≤ map.n_out then
      some ⟨map.n_in, map.n_out + n, map.in_name,
        fun x y => y.length = map.n_out + n ∧ map.rel x (dropDims y pos n),
        fun x _ h => ⟨(map.wf x _ h.2).1, h.1⟩⟩
    else none

/-- The call `isl_map_domain(map)`: the set has the name of the input tuple. -/
def isl_map_domain (map : IslMap) : IslSet :=
  ⟨map.n_in, map.in_name, fun x => ∃ y, map.rel x y, fun x ⟨y, h⟩ => (map.wf x y h).1⟩

/-- The call `isl_map_intersect_domain(map, set)`.  The library rejects a
set whose space is not that of the input tuple of the map: another arity or
another tuple name. -/
def isl_map_intersect_domain (map : IslMap) (set : IslSet) : Option IslMap :=
  if set.n = map.n_in ∧ set.name = map.in_name then
    some ⟨map.n_in, map.n_out, map.in_name, fun x y => map.rel x y ∧ set.mem x,
      fun x y h => map.wf x y h.1⟩
  else none

/-- The call `isl_map_apply_range(map1, map2)`: relational composition, first
`map1`, then `map2`.  The library rejects an output tuple of `map1` that is
not the input tuple of `map2`; of the two tuples the arities are compared
here, the name of an output tuple being left out. -/
def isl_map_apply_range (map1 map2 : IslMap) : Option IslMap :=
  if map1.n_out = map2.n_in then
    some ⟨map1.n_in, map2.n_out, map1.in_name,
      fun x z => ∃ y, map1.rel x y ∧ map2.rel y z,
      fun x z ⟨y, h1, h2⟩ => ⟨(map1.wf x y h1).1, (map2.wf y z h2).2⟩⟩
  else none

/-- The call `isl_map_subtract(map1, map2)`: set difference of the two
relations.  The library rejects relations of different spaces. -/
def isl_map_subtract (map1 map2 : IslMap) : Option IslMap :=
  if map1.n_in = map2.n_in ∧ map1.n_out = map2.n_out ∧ map1.in_name = map2.in_name then
    some ⟨map1.n_in, map1.n_out, map1.in_name, fun x y => map1.rel x y ∧ ¬ map2.rel x y,
      fun x y h => map1.wf x y h.1⟩
  else none

/-- The two equality tests of isl that `FillFromOccupancy` calls.  The
library decides them on its constraint representation; here they are taken
with their contract: the plain test only ever answers yes on equal maps, and
the exact test answers yes exactly on equal maps. -/
structure IslEquality where
  isl_map_plain_is_equal : IslMap → IslMap → Bool
  isl_map_is_equal : IslMap → IslMap → Bool
  plain_sound : ∀ a b, isl_map_plain_is_equal a b = true → a = b
  is_equal_iff : ∀ a b, isl_map_is_equal a b = true ↔ a = b

/-- The equality tests obtained from any decision of map equality; the plain
test of this instance never answers yes. -/
def IslEquality.ofDecEq (dec : DecidableEq IslMap) : IslEquality :=
  ⟨fun _ _ => false, fun a b => @decide (a = b) (dec a b),
    fun _ _ h => by simp at h,
    fun a b => @decide_eq_true_iff (a = b) (dec a b)⟩

/-- The type `isl_bool`: the answer of an isl test, or an error. -/
inductive isl_bool where
  | isl_bool_error
  | isl_bool_false
  | isl_bool_true
  deriving DecidableEq, Repr

/-- The value of an `isl_bool` as an operand of `||` or the condition of an
`if` in C: `isl_bool_false` is 0, `isl_bool_true` is 1 and `isl_bool_error`
is -1, so every value but `isl_bool_false` counts as true. -/
def isl_bool.holds : isl_bool → Bool
  | .isl_bool_false => false
  | _ => true

/-- The call `isl_map_plain_is_equal(map1, map2)` on pointers: an error when
one of the maps is missing. -/
def IslEquality.plain_is_equal (E : IslEquality) : Option IslMap → Option IslMap → isl_bool
  | some map1, some map2 =>
    if E.isl_map_plain_is_equal map1 map2 then .isl_bool_true else .isl_bool_false
  | _, _ => .isl_bool_error

/-- The call `isl_map_is_equal(map1, map2)` on pointers: an error when one
of the maps is missing. -/
def IslEquality.is_equal (E : IslEquality) : Option IslMap → Option IslMap → isl_bool
  | some map1, some map2 =>
    if E.isl_map_is_equal map1 map2 then .isl_bool_true else .isl_bool_false
  | _, _ => .isl_bool_error

/-! ## Affine expressions -/

/-- An isl affine expression over a domain with `coefs.length` dimensions. -/
structure IslAff where
  coefs : List Int
  const : Int
  deriving DecidableEq, Repr

/-- Sum of the products of coefficients and coordinates. -/
def dot : List Int → List Int → Int
  | c :: cs, x :: xs => c * x + dot cs xs
  | _, _ => 0

/-- Value of an affine expression at a point. -/
def IslAff.eval (aff : IslAff) (x : List Int) : Int :=
  aff.const + dot aff.coefs x

/-- An isl multi-affine function: one affine expression per output
dimension over `n_in` input dimensions, with the name of its input tuple. -/
structure IslMultiAff where
  n_in : Nat
  in_name : Option String
  affs : List IslAff
  deriving DecidableEq, Repr

/-- The call `isl_aff_zero_on_domain_space(space)`, on a set space. -/
def isl_aff_zero_on_domain_space (space : IslSpace) : IslAff :=
  ⟨List.replicate space.n_out 0, 0⟩

/-- The call `isl_aff_set_coefficient_si(aff, isl_dim_in, pos, v)`. -/
def isl_aff_set_coefficient_si (aff : IslAff) (pos : Nat) (v : Int) : Option IslAff :=
  if pos < aff.coefs.length then some ⟨aff.coefs.set pos v, aff.const⟩ else none

/-- The call `isl_aff_set_constant_si(aff, v)`. -/
def isl_aff_set_constant_si (aff : IslAff) (v : Int) : IslAff :=
  ⟨aff.coefs, v⟩

/-- The call `isl_multi_aff_identity_on_domain_space(space)`, on a set
space: output `k` is input `k`. -/
def isl_multi_aff_identity_on_domain_space (space : IslSpace) : IslMultiAff :=
  ⟨space.n_out, space.name,
    (List.range space.n_out).map
      fun k => ⟨(List.replicate space.n_out 0).set k 1, 0⟩⟩

/-- The call `isl_multi_aff_get_at(maff, pos)`. -/
def isl_multi_aff_get_at (maff : IslMultiAff) (pos : Nat) : Option IslAff :=
  maff.affs[pos]?

/-- The call `isl_multi_aff_set_at(maff, pos, aff)`. -/
def isl_multi_aff_set_at (maff : IslMultiAff) (pos : Nat) (aff : IslAff) :
    Option IslMultiAff :=
  if pos < maff.affs.length ∧ aff.coefs.length = maff.n_in then
    some ⟨maff.n_in, maff.in_name, maff.affs.set pos aff⟩
  else none

/-- The call `isl_map_from_multi_aff(maff)`: the graph of the function. -/
def isl_map_from_multi_aff (maff : IslMultiAff) : IslMap :=
  ⟨maff.n_in, maff.affs.length, maff.in_name,
    fun x y => x.length = maff.n_in ∧ y = maff.affs.map fun a => a.eval x,
    fun x y h => ⟨h.1, by rw [h.2, List.length_map]⟩⟩

/-- An isl piecewise multi-affine function, by its meaning: a function on
part of the integer tuples of arity `n_in`, with the name of its input
tuple. -/
structure IslPwMultiAff where
  n_in : Nat
  n_out : Nat
  in_name : Option String
  fn : List Int → Option (List Int)
  wf : ∀ x y, fn x = some y → x.length = n_in ∧ y.length = n_out

/-- The call `isl_map_from_pw_multi_aff(pma)`: the graph of the function. -/
def isl_map_from_pw_multi_aff (pma : IslPwMultiAff) : IslMap :=
  ⟨pma.n_in, pma.n_out, pma.in_name, fun x y => pma.fn x = some y, pma.wf⟩

/-! ## `isl-functions.cpp` -/

/-- The function `isl::project_dim`. -/
def project_dim (map : IslMap) (dim_type : isl_dim_type) (start n : Nat) :
    Option IslMap :=
  isl_map_project_out map dim_type start n

/-- The function `isl::project_dim_in_after`.  The count `n_dim_in - start`
is computed in `size_t`, so it wraps modulo `2 ^ 64` when `start` exceeds
the number of input dimensions. -/
def project_dim_in_after (map : IslMap) (start : Nat) : Option IslMap :=
  let n_dim_in := isl_map_dim map .isl_dim_in
  project_dim map .isl_dim_in start ((n_dim_in + 2 ^ 64 - start % 2 ^ 64) % 2 ^ 64)

/-- The function `isl::map_from_multi_aff` on a piecewise function. -/
def map_from_multi_aff (maff : IslPwMultiAff) : IslMap :=
  isl_map_from_pw_multi_aff maff

/-- The function `isl::map_to_shifted`: the identity on the domain space
with `shift` added at coordinate `pos`. -/
def map_to_shifted (domain_space : IslSpace) (pos : Nat) (shift : Int) :
    Option IslMap :=
  let p_maff := isl_multi_aff_identity_on_domain_space domain_space
  match isl_multi_aff_get_at p_maff pos with
  | none => none
  | some aff =>
    match isl_multi_aff_set_at p_maff pos (isl_aff_set_constant_si aff shift) with
    | none => none
    | some p_maff => some (isl_map_from_multi_aff p_maff)

/-! ## `temporal-analysis.cpp` -/

/-- The tag of an iteration dimension (the alternatives of `SpaceTime`). -/
inductive SpaceTime where
  | Temporal
  | Spatial
  | Sequential
  | PipelineTemporal
  | PipelineSpatial
  deriving DecidableEq, Repr

/-- An occupancy: a map from iterations to resident addresses, with one tag
per input dimension. -/
structure Occupancy where
  dim_in_tags : List SpaceTime
  map : IslMap

/-- A fill: same shape as an occupancy. -/
structure Fill where
  dim_in_tags : List SpaceTime
  map : IslMap

/-- The reuse options of a buffer. -/
structure BufTemporalReuseOpts where
  exploit_temporal_reuse : Bool
  multi_loop_reuse : Bool
  deriving DecidableEq, Repr

/-- Input of `TemporalReuseAnalysis`. -/
structure TemporalReuseAnalysisInput where
  occupancy : Occupancy
  reuse_opts : BufTemporalReuseOpts

/-- Output of `TemporalReuseAnalysis`. -/
structure TemporalReuseAnalysisOutput where
  effective_occupancy : Occupancy
  fill : Fill

/-- The test of lines 67-69: the tag holds `Temporal`, `Sequential` or
`PipelineTemporal`. -/
def isTemporalTag : SpaceTime → Bool
  | .Temporal => true
  | .Sequential => true
  | .PipelineTemporal => true
  | _ => false

/-- Lines 76-84 of `FillFromOccupancy`, on the pointer `p_occ`: project
dimension `dim_idx` out, insert an unconstrained dimension in its place,
intersect with the domain of `p_occ`, and compare with `p_occ`.  Each isl
call on a missing map yields a missing map.  The two `isl_bool` answers are
the operands of `||`, so an error counts as a yes.  Returns `p_proj_occ` and
the outcome of the condition of line 83. -/
def trivialCheck (E : IslEquality) (p_occ : Option IslMap) (dim_idx : Nat) :
    Option IslMap × Bool :=
  let p_proj_occ := p_occ.bind fun map => isl_map_project_out map .isl_dim_in dim_idx 1
  let inserted := p_proj_occ.bind fun map => isl_map_insert_dims map .isl_dim_in dim_idx 1
  let p_reinserted_occ :=
    match inserted, p_occ with
    | some map, some occ => isl_map_intersect_domain map (isl_map_domain occ)
    | _, _ => none
  (p_proj_occ,
    (E.plain_is_equal p_occ p_reinserted_occ).holds
      || (E.is_equal p_occ p_reinserted_occ).holds)

/-- The loop of `FillFromOccupancy` (lines 62-94) over the remaining
`(index, tag)` pairs, innermost first, with the current pointer `p_occ` and
the current tag list `tags`.  The result is the pointer and the tags when
the loop ends, with `some dim_idx` when the loop was left at the non-trivial
dimension `dim_idx` (line 93 onwards) and `none` when it ran to its end. -/
def scanLoopPtr (E : IslEquality) :
    List (Nat × SpaceTime) → Option IslMap → List SpaceTime →
      Option IslMap × List SpaceTime × Option Nat
  | [], p_occ, tags => (p_occ, tags, none)
  | (dim_idx, dim_tag) :: rest, p_occ, tags =>
    if !(isTemporalTag dim_tag) then
      scanLoopPtr E rest p_occ tags
    else
      match trivialCheck E p_occ dim_idx with
      | (p_proj_occ, true) => scanLoopPtr E rest p_proj_occ (tags.eraseIdx dim_idx)
      | (_, false) => (p_occ, tags, some dim_idx)

/-- The loop of `FillFromOccupancy` started on the relation `p_occ` (line
60), with the pointer it ends with handed to `isl::manage` (lines 121 and
126-127), which accepts no missing map. -/
def scanLoop (E : IslEquality) (pairs : List (Nat × SpaceTime)) (p_occ : IslMap)
    (tags : List SpaceTime) : Option (IslMap × List SpaceTime × Option Nat) :=
  match scanLoopPtr E pairs (some p_occ) tags with
  | (some p_occ, tags, stop) => some (p_occ, tags, stop)
  | (none, _, _) => none

/-- Lines 96-118 of `FillFromOccupancy`: the fill at the non-trivial
dimension `dim_idx`.  In multi-loop mode the source reads the pointer
`p_spacetime_domain_to_time_domain`, which is never assigned; that path has
no defined result. -/
def fillAt (p_occ : IslMap) (dim_idx : Nat) (multi_loop_reuse : Bool) :
    Option IslMap :=
  if !multi_loop_reuse then
    match map_to_shifted (isl_space_domain (isl_map_get_space p_occ)) dim_idx (-1) with
    | none => none
    | some p_time_shift =>
      match isl_map_apply_range p_time_shift p_occ with
      | none => none
      | some p_occ_before => isl_map_subtract p_occ p_occ_before
  else none

/-- The function `FillFromOccupancy`. -/
def FillFromOccupancy (E : IslEquality) (occupancy : Occupancy)
    (multi_loop_reuse : Bool) : Option (Occupancy × Fill) :=
  match scanLoop E occupancy.dim_in_tags.enum.reverse occupancy.map
      occupancy.dim_in_tags with
  | none => none
  | some (p_occ, tags, some dim_idx) =>
    match fillAt p_occ dim_idx multi_loop_reuse with
    | none => none
    | some p_fill => some (⟨tags, p_occ⟩, ⟨tags, p_fill⟩)
  | some (p_occ, tags, none) => some (⟨tags, p_occ⟩, ⟨tags, p_occ⟩)

/-- The function `TemporalReuseAnalysis`. -/
def TemporalReuseAnalysis (E : IslEquality) (input : TemporalReuseAnalysisInput) :
    Option TemporalReuseAnalysisOutput :=
  let exploit_temporal_reuse := input.reuse_opts.exploit_temporal_reuse
  let occupancy := input.occupancy
  let multi_loop_reuse := input.reuse_opts.multi_loop_reuse
  if exploit_temporal_reuse then
    match FillFromOccupancy E occupancy multi_loop_reuse with
    | none => none
    | some (eff_occ, fill) => some ⟨eff_occ, fill⟩
  else
    some ⟨occupancy, ⟨occupancy.dim_in_tags, occupancy.map⟩⟩

/-! ## `mapping-to-isl.cpp` -/

/-- A `std::map`, by its entries.  Only lookups and `emplace` are used, so
the order of the entries does not matter; it is insertion order here. -/
abbrev StdMap (K V : Type) := List (K × V)

/-- The member `std::map::at`; `none` stands for the exception it throws on
a missing key. -/
def StdMap.at {K V : Type} [DecidableEq K] : StdMap K V → K → Option V
  | [], _ => none
  | (k0, v) :: m, k => if k0 = k then some v else StdMap.at m k

/-- The member `std::map::emplace`: an existing entry is kept. -/
def StdMap.emplace {K V : Type} [DecidableEq K] (m : StdMap K V) (k : K) (v : V) :
    StdMap K V :=
  match StdMap.at m k with
  | some _ => m
  | none => m ++ [(k, v)]

/-- The assignment `m[k] = v` of `std::map`: an existing entry is replaced. -/
def StdMap.assign {K V : Type} [DecidableEq K] : StdMap K V → K → V → StdMap K V
  | [], k, v => [(k, v)]
  | (k0, v0) :: m, k, v =>
    if k0 = k then (k0, v) :: m else (k0, v0) :: StdMap.assign m k v

/-- A logical buffer. -/
structure LogicalBuffer where
  buffer_id : Nat
  dspace_id : Nat
  branch_leaf_id : Nat
  deriving DecidableEq, Repr

/-- The node kinds of a mapping that the visitors of this file tell apart;
`Other` is any node kind they pass over. -/
inductive MappingNode where
  | For (op_dim : Nat) (end_ : Option Nat)
  | ParFor (op_dim : Nat) (end_ : Option Nat)
  | Storage (buffer : Nat) (dspace : Nat)
  | Compute (id : Nat) (tiling_spec : Option IslPwMultiAff)
  | Other

/-- A fused mapping, given by its root-to-leaf paths in traversal order. -/
structure FusedMapping where
  paths : List (List MappingNode)

/-- Modelled from the spec: `GetPaths` is not in the sources at hand; it
yields the root-to-leaf paths of the mapping tree, each a sequence of
nodes. -/
def GetPaths (mapping : FusedMapping) : List (List MappingNode) :=
  mapping.paths

/-- The state of a `TilingCoefTracker`. -/
structure TilingCoefTracker where
  coefs_ : List (List (Option Nat))

/-- The members of `TilingCoefTracker` whose bodies are not in the sources
at hand: its constructor, `NewIterDim` and `TilingCoefTrackerToMap`. -/
structure TilingCoefTrackerFns where
  init : TilingCoefTracker
  NewIterDim : TilingCoefTracker → Nat → Option Nat → TilingCoefTracker
  TilingCoefTrackerToMap : TilingCoefTracker → IslMap

/-- The visitor of `TilingFromMapping` (lines 99-113) on the state
`(coef_tracker, explicit_tiling_spec, leaf_id)`. -/
def TilingFromMapping.visit (T : TilingCoefTrackerFns) :
    TilingCoefTracker × Option IslPwMultiAff × Nat → MappingNode →
      TilingCoefTracker × Option IslPwMultiAff × Nat
  | (coef_tracker, spec, leaf_id), .For op_dim end_ =>
    (T.NewIterDim coef_tracker op_dim end_, spec, leaf_id)
  | (coef_tracker, spec, leaf_id), .ParFor op_dim end_ =>
    (T.NewIterDim coef_tracker op_dim end_, spec, leaf_id)
  | (coef_tracker, _, _), .Compute id tiling_spec => (coef_tracker, tiling_spec, id)
  | state, _ => state

/-- The body of the loop over paths of `TilingFromMapping` (lines 94-128).
The variable `leaf_id` is declared without a value; `leaf_id0` is the value
it holds when the path has no `Compute` node to assign it. -/
def TilingFromMapping.path (T : TilingCoefTrackerFns) (leaf_id0 : Nat)
    (result : StdMap Nat IslMap) (path : List MappingNode) : StdMap Nat IslMap :=
  match path.foldl (TilingFromMapping.visit T) (T.init, none, leaf_id0) with
  | (_, some explicit_tiling_spec, leaf_id) =>
    result.emplace leaf_id (map_from_multi_aff explicit_tiling_spec)
  | (coef_tracker, none, leaf_id) =>
    result.emplace leaf_id (T.TilingCoefTrackerToMap coef_tracker)

/-- The loop over paths of `TilingFromMapping`, at path number `k`. -/
def TilingFromMapping.loop (T : TilingCoefTrackerFns) (uninit : Nat → Nat) :
    Nat → List (List MappingNode) → StdMap Nat IslMap → StdMap Nat IslMap
  | _, [], result => result
  | k, path :: rest, result =>
    TilingFromMapping.loop T uninit (k + 1) rest
      (TilingFromMapping.path T (uninit k) result path)

/-- The function `TilingFromMapping` of lines 87-132 (its workload argument
is not used and is left out; the call at line 213 is taken to reach this
body).  `uninit k` is the value of the unassigned `leaf_id` at path `k`. -/
def TilingFromMapping (T : TilingCoefTrackerFns) (uninit : Nat → Nat)
    (mapping : FusedMapping) : StdMap Nat IslMap :=
  TilingFromMapping.loop T uninit 0 (GetPaths mapping) []

/-- The visitor of `BufferIterLevelsFromMapping` (lines 175-202) on the
state `(iter_idx, new_results)`. -/
def BufferIterLevelsFromMapping.visit :
    Nat × List (LogicalBuffer × Nat) → MappingNode → Nat × List (LogicalBuffer × Nat)
  | (iter_idx, new_results), .Storage buffer dspace =>
    (iter_idx, new_results ++ [(⟨buffer, dspace, 0⟩, iter_idx)])
  | (iter_idx, new_results), .For _ _ => (iter_idx + 1, new_results)
  | (iter_idx, new_results), .ParFor _ _ => (iter_idx + 1, new_results)
  | (iter_idx, new_results), .Compute id _ =>
    (iter_idx, new_results.map fun e => (⟨e.1.buffer_id, e.1.dspace_id, id⟩, e.2))
  | state, .Other => state

/-- The function `BufferIterLevelsFromMapping` on a fused mapping (lines
165-208). -/
def BufferIterLevelsFromMapping (mapping : FusedMapping) :
    List (LogicalBuffer × Nat) :=
  (GetPaths mapping).foldl
    (fun result path =>
      result ++ (path.foldl BufferIterLevelsFromMapping.visit (0, [])).2)
    []

/-- The call `ProjectDimInAfter(map, start)` of lines 221 and 242, on the
wrapper type `IslMap`: it is `isl::project_dim_in_after` of
`isl-functions.cpp`, which has its name and its arguments. -/
def ProjectDimInAfter (map : IslMap) (start : Nat) : Option IslMap :=
  project_dim_in_after map start

/-- Modelled from the spec: the wrapper `ApplyRange` is not in the sources
at hand; it is the relational composition `apply_range` of the algebra
contract, `isl_map_apply_range`. -/
def ApplyRange (map1 map2 : IslMap) : Option IslMap :=
  isl_map_apply_range map1 map2

/-- The loop of `LogicalBufTilingFromMapping` (lines 217-224). -/
def LogicalBufTilingFromMapping.loop (branch_tiling : StdMap Nat IslMap) :
    List (LogicalBuffer × Nat) → StdMap LogicalBuffer IslMap →
      Option (StdMap LogicalBuffer IslMap)
  | [], result => some result
  | (buf, level) :: rest, result =>
    match StdMap.at branch_tiling buf.branch_leaf_id with
    | none => none
    | some tiling =>
      match ProjectDimInAfter tiling level with
      | none => none
      | some projected =>
        LogicalBufTilingFromMapping.loop branch_tiling rest (result.emplace buf projected)

/-- The function `LogicalBufTilingFromMapping` on a fused mapping (lines
210-227). -/
def LogicalBufTilingFromMapping (T : TilingCoefTrackerFns) (uninit : Nat → Nat)
    (mapping : FusedMapping) : Option (StdMap LogicalBuffer IslMap) :=
  let branch_tiling := TilingFromMapping T uninit mapping
  let buf_to_iter_level := BufferIterLevelsFromMapping mapping
  LogicalBufTilingFromMapping.loop branch_tiling buf_to_iter_level []

/-- The parts of a workload shape that this file reads.  The two maps
between data-space names and ids are given by their entries in iteration
order. -/
structure Shape where
  NumFactorizedDimensions : Nat
  NumCoefficients : Nat
  DataSpaceNameToID : List (String × Nat)
  DataSpaceOrder : StdMap Nat Nat
  Projections : List (List (List (Nat × Nat)))
  DataSpaceIDToName : List (Nat × String)

/-- A workload: its shape and the value of each coefficient. -/
structure Workload where
  GetShape : Shape
  GetCoefficient : Nat → Int

/-- Modelled from the spec: the wrappers `IslAff` and `IslMultiAff` are not in
the sources at hand.  By the ownership transfer of the design notes, the call
`multi_aff.SetAff(pos, std::move(aff))` hands the expression over to
`multi_aff` and leaves the variable `aff` without an expression (`none`); the
result is the new `aff` and the new `multi_aff`.  A call on a missing object
yields a missing object. -/
def SetAff (multi_aff : Option IslMultiAff) (pos : Nat) (aff : Option IslAff) :
    Option IslAff × Option IslMultiAff :=
  (none,
    match multi_aff, aff with
    | some m, some a => isl_multi_aff_set_at m pos a
    | _, _ => none)

/-- Lines 283-295: one term of a projection, on the state `(aff, multi_aff)`.
The call of `SetAff` stands inside the loop over the terms. -/
def OpsToDSpaceFromEinsum.term (workload : Workload) (dspace_dim : Nat) :
    Option IslAff × Option IslMultiAff → Nat × Nat →
      Option IslAff × Option IslMultiAff
  | (aff, multi_aff), (coef_id, factorized_dim_id) =>
    let aff :=
      if coef_id ≠ workload.GetShape.NumCoefficients then
        aff.bind fun a =>
          isl_aff_set_coefficient_si a factorized_dim_id (workload.GetCoefficient coef_id)
      else
        aff.bind fun a => isl_aff_set_coefficient_si a factorized_dim_id 1
    SetAff multi_aff dspace_dim aff

/-- Lines 278-297: the loop over the address coordinates `dspace_dim`,
`dspace_dim + 1`, ... of one data-space (`fuel` coordinates remain). -/
def OpsToDSpaceFromEinsum.dims (workload : Workload) (space : IslSpace)
    (projection : List (List (Nat × Nat))) :
    Nat → Nat → Option IslMultiAff → Option (Option IslMultiAff)
  | 0, _, multi_aff => some multi_aff
  | fuel + 1, dspace_dim, multi_aff =>
    let aff := isl_aff_zero_on_domain_space (isl_space_domain space)
    match projection[dspace_dim]? with
    | none => none
    | some terms =>
      OpsToDSpaceFromEinsum.dims workload space projection fuel (dspace_dim + 1)
        (terms.foldl (OpsToDSpaceFromEinsum.term workload dspace_dim)
          (some aff, multi_aff)).2

/-- Lines 257-300: the loop over data-spaces.  A `none` result stands for an
exception of `at` or for a data-space whose map is a missing isl object. -/
def OpsToDSpaceFromEinsum.loop (workload : Workload) :
    List (String × Nat) → StdMap Nat IslMap → Option (StdMap Nat IslMap)
  | [], result => some result
  | (_, dspace_id) :: rest, result =>
    match StdMap.at workload.GetShape.DataSpaceOrder dspace_id with
    | none => none
    | some dspace_order =>
      match workload.GetShape.Projections[dspace_id]? with
      | none => none
      | some projection =>
        let space : IslSpace :=
          ⟨workload.GetShape.NumFactorizedDimensions, dspace_order, none⟩
        let multi_aff : IslMultiAff :=
          ⟨space.n_in, space.name,
            List.replicate dspace_order (isl_aff_zero_on_domain_space (isl_space_domain space))⟩
        match OpsToDSpaceFromEinsum.dims workload space projection dspace_order 0
            (some multi_aff) with
        | some (some multi_aff) =>
          OpsToDSpaceFromEinsum.loop workload rest
            (StdMap.assign result dspace_id (isl_map_from_multi_aff multi_aff))
        | _ => none

/-- The function `OpsToDSpaceFromEinsum` (lines 250-303). -/
def OpsToDSpaceFromEinsum (workload : Workload) : Option (StdMap Nat IslMap) :=
  OpsToDSpaceFromEinsum.loop workload workload.GetShape.DataSpaceNameToID []

/-- The loop of `OccupanciesFromMapping` (lines 72-78). -/
def OccupanciesFromMapping.loop (ops_to_dspace : StdMap Nat IslMap) :
    List (LogicalBuffer × IslMap) → StdMap LogicalBuffer IslMap →
      Option (StdMap LogicalBuffer IslMap)
  | [], result => some result
  | (buf, tiling) :: rest, result =>
    match StdMap.at ops_to_dspace buf.dspace_id with
    | none => none
    | some ops =>
      match ApplyRange tiling ops with
      | none => none
      | some occ => OccupanciesFromMapping.loop ops_to_dspace rest (result.emplace buf occ)

/-- The function `OccupanciesFromMapping` (lines 64-81). -/
def OccupanciesFromMapping (T : TilingCoefTrackerFns) (uninit : Nat → Nat)
    (mapping : FusedMapping) (workload : Workload) :
    Option (StdMap LogicalBuffer IslMap) :=
  match OpsToDSpaceFromEinsum workload with
  | none => none
  | some ops_to_dspace =>
    match LogicalBufTilingFromMapping T uninit mapping with
    | none => none
    | some buf_tiling => OccupanciesFromMapping.loop ops_to_dspace buf_tiling []

/-- A flat loop nest: its loops and the declared storage tiling boundaries.
The loop descriptors are not read by this file. -/
structure Nest (Descriptor : Type) where
  loops : List Descriptor
  storage_tiling_boundaries : List Nat

/-- The body of the loop over `nest.loops` of the flat-nest form of
`BufferIterLevelsFromMapping` (lines 149-159), on the state
`(arch_level, loop_idx, result)`.  Membership in `tiling_boundaries` is the
`find` in the `std::set` built from the declared boundaries. -/
def BufferIterLevelsFromMapping.nestStep (tiling_boundaries : List Nat)
    (dataspaces : List (Nat × String)) :
    Nat × Nat × List (LogicalBuffer × Nat) → Nat × Nat × List (LogicalBuffer × Nat)
  | (arch_level, loop_idx, result) =>
    if loop_idx ∈ tiling_boundaries then
      (arch_level + 1, loop_idx + 1,
        result ++ dataspaces.map fun e => (⟨arch_level, e.1, 0⟩, loop_idx))
    else
      (arch_level, loop_idx + 1, result)

/-- The function `BufferIterLevelsFromMapping` on a flat loop nest (lines
134-163). -/
def BufferIterLevelsFromMapping.ofNest {Descriptor : Type} (nest : Nest Descriptor)
    (workload : Workload) : List (LogicalBuffer × Nat) :=
  (nest.loops.foldl
    (fun state _ =>
      BufferIterLevelsFromMapping.nestStep nest.storage_tiling_boundaries
        workload.GetShape.DataSpaceIDToName state)
    (0, 0, [])).2.2

/-! ## Notions used to state the properties -/

/-- Dimension `d` of the domain of `p` carries no information: two points of
the domain that differ at most in coordinate `d` have the same images. -/
def TrivialDim (p : IslMap) (d : Nat) : Prop :=
  ∀ x x0 y y0, p.rel x y0 → p.rel x0 y → dropDims x d 1 = dropDims x0 d 1 → p.rel x y

/-- The tag list of an occupancy has one tag per input dimension. -/
def Occupancy.TagsMatch (occ : Occupancy) : Prop :=
  occ.dim_in_tags.length = occ.map.n_in

/-- The tag list of a fill has one tag per input dimension. -/
def Fill.TagsMatch (fill : Fill) : Prop :=
  fill.dim_in_tags.length = fill.map.n_in

/-! ## Occupancies used as examples -/

/-- The relation `{(t) -> t}`. -/
def map_t_to_t : IslMap :=
  ⟨1, 1, none, fun x y => ∃ t, x = [t] ∧ y = [t], by
    rintro x y ⟨t, rfl, rfl⟩
    exact ⟨rfl, rfl⟩⟩

/-- The relation `{(i, j) -> j}`. -/
def map_ij_to_j : IslMap :=
  ⟨2, 1, none, fun x y => ∃ i j, x = [i, j] ∧ y = [j], by
    rintro x y ⟨i, j, rfl, rfl⟩
    exact ⟨rfl, rfl⟩⟩

/-- The relation `{S(t) -> t}`, whose input tuple has the name `S`. -/
def map_S_t_to_t : IslMap :=
  ⟨1, 1, some "S", fun x y => ∃ t, x = [t] ∧ y = [t], by
    rintro x y ⟨t, rfl, rfl⟩
    exact ⟨rfl, rfl⟩⟩

/-- The relation `{() -> o}` between the empty tuple and every address. -/
def map_unit_to_all : IslMap :=
  ⟨0, 1, none, fun x y => x = [] ∧ ∃ o, y = [o], by
    rintro x y ⟨rfl, o, rfl⟩
    exact ⟨rfl, rfl⟩⟩

/-- The occupancy `{S(t) -> t}` with `t` tagged `Temporal`. -/
def occ_S_t : Occupancy :=
  ⟨[.Temporal], map_S_t_to_t⟩

/-- The occupancy `{(t) -> t}` with `t` tagged `Temporal`. -/
def occ_t : Occupancy :=
  ⟨[.Temporal], map_t_to_t⟩

/-- The occupancy `{(i, j) -> j}` with `i` tagged `Temporal` and `j` tagged
`tag_j`. -/
def occ_ij (tag_j : SpaceTime) : Occupancy :=
  ⟨[.Temporal, tag_j], map_ij_to_j⟩

/-! ## Notions used to state the properties of the mapping conversion -/

/-- The node is a `For` or a `ParFor`. -/
def MappingNode.isLoop : MappingNode → Bool
  | .For _ _ => true
  | .ParFor _ _ => true
  | _ => false

/-- The node is a `Compute` node. -/
def MappingNode.isCompute : MappingNode → Bool
  | .Compute _ _ => true
  | _ => false

/-- The id of the last node of a path, when that node is a `Compute` node. -/
def leafIdOf (path : List MappingNode) : Nat :=
  match path.getLast? with
  | some (.Compute id _) => id
  | _ => 0

/-- The pairs expected of one path: for each position `k` that holds a
`Storage` node, the buffer with the ids of the node and the leaf id
`leaf_id`, paired with the number of `For` and `ParFor` nodes before
position `k`. -/
def storagePairs (leaf_id : Nat) (path : List MappingNode) : List (LogicalBuffer × Nat) :=
  (List.range path.length).filterMap fun k =>
    match (path[k]? : Option MappingNode) with
    | some (MappingNode.Storage buffer dspace) =>
      some (⟨buffer, dspace, leaf_id⟩, (path.take k).countP MappingNode.isLoop)
    | _ => none

/-! ## Mappings used as examples -/

/-- The identity on integer pairs, as an explicit tiling specification. -/
def id2 : IslPwMultiAff :=
  ⟨2, 2, none, fun x => if x.length = 2 then some x else none, by
    intro x y h
    by_cases hx : x.length = 2
    · simp only [if_pos hx, Option.some.injEq] at h
      exact ⟨hx, h ▸ hx⟩
    · simp only [if_neg hx] at h
      cases h⟩

/-- A stand-in for the members of `TilingCoefTracker`, for examples whose
leaf carries an explicit tiling specification: it records one slot per loop
and turns them into the relation that holds of no pair. -/
def exampleTracker : TilingCoefTrackerFns :=
  ⟨⟨[]⟩, fun t _ e => ⟨t.coefs_ ++ [[e]]⟩,
    fun t => ⟨t.coefs_.length, t.coefs_.length, none, fun _ _ => False, fun _ _ h => h.elim⟩⟩

/-- One path: a loop, a storage node for buffer 0 and data-space 0, a second
loop, and the leaf 7 with the explicit tiling `id2`. -/
def mapping_level1 : FusedMapping :=
  ⟨[[.For 0 none, .Storage 0 0, .For 1 none, .Compute 7 (some id2)]]⟩

/-- Two paths that share their first storage node. -/
def mapping_two_paths : FusedMapping :=
  ⟨[[.Storage 0 0, .For 0 none, .Compute 1 none],
    [.Storage 0 0, .ParFor 0 none, .Storage 1 0, .Compute 2 none]]⟩

/-- A two-level nest: a storage node for `buffer` and data-space 0 before
both loops, the loop of `i`, the loop of `j`, and the leaf `leaf`. -/
def nest2 (buffer leaf op_i op_j : Nat) (end_i end_j : Option Nat)
    (spec : Option IslPwMultiAff) : FusedMapping :=
  ⟨[[.Storage buffer 0, .For op_i end_i, .For op_j end_j, .Compute leaf spec]]⟩

/-- The tiling relation that lines 116-128 of `TilingFromMapping` give the
leaf of `nest2`. -/
def leafTiling (T : TilingCoefTrackerFns) (op_i op_j : Nat) (end_i end_j : Option Nat)
    (spec : Option IslPwMultiAff) : IslMap :=
  match spec with
  | some explicit_tiling_spec => map_from_multi_aff explicit_tiling_spec
  | none =>
    T.TilingCoefTrackerToMap (T.NewIterDim (T.NewIterDim T.init op_i end_i) op_j end_j)

/-- A workload with two operation dimensions `i`, `j` and one data-space, of
id 0 and rank 1, whose address is `i`: one term on dimension 0, with the
sentinel coefficient id (coefficient 1). -/
def workload_i : Workload :=
  ⟨⟨2, 0, [("A", 0)], [(0, 1)], [[[(0, 0)]]], [(0, "A")]⟩, fun _ => 1⟩

/-- The relation `{(i, j) -> i}`, as `OpsToDSpaceFromEinsum` builds it. -/
def map_ij_to_i : IslMap :=
  isl_map_from_multi_aff ⟨2, none, [⟨[1, 0], 0⟩]⟩

/-- One path with two `Compute` nodes: leaf 1 without a tiling specification,
a loop, and leaf 2 with the explicit tiling `id2`. -/
def mapping_two_computes : FusedMapping :=
  ⟨[[.Compute 1 none, .For 0 none, .Compute 2 (some id2)]]⟩

/-- A workload with two operation dimensions and one data-space, of id 0 and
rank 1, whose address coordinate has two terms: coefficient 0 on dimension 0
and coefficient 1 on dimension 1, both coefficients of value 1. -/
def workload_two_terms : Workload :=
  ⟨⟨2, 2, [("A", 0)], [(0, 1)], [[[(0, 0), (1, 1)]]], [(0, "A")]⟩, fun _ => 1⟩

/-- A workload whose data-space 0 has no entry in `DataSpaceOrder`. -/
def workload_no_order : Workload :=
  ⟨⟨2, 0, [("A", 0)], [], [[[(0, 0)]]], [(0, "A")]⟩, fun _ => 1⟩

/-- One path with a loop and the leaf 7, and no storage node. -/
def mapping_no_storage : FusedMapping :=
  ⟨[[.For 0 none, .Compute 7 (some id2)]]⟩

/-! ## Notions used to state the properties of the loop -/

/-- The indices the loop of `FillFromOccupancy` eliminates from the pointer
`p_occ` on, in the order in which it eliminates them (innermost first): the
case distinction is that of `scanLoopPtr`. -/
def eliminatedDimsPtr (E : IslEquality) : List (Nat × SpaceTime) → Option IslMap → List Nat
  | [], _ => []
  | (dim_idx, dim_tag) :: rest, p_occ =>
    if !(isTemporalTag dim_tag) then
      eliminatedDimsPtr E rest p_occ
    else
      match trivialCheck E p_occ dim_idx with
      | (p_proj_occ, true) => dim_idx :: eliminatedDimsPtr E rest p_proj_occ
      | (_, false) => []

/-- The indices the loop of `FillFromOccupancy` eliminates when started on
the relation `p_occ`. -/
def eliminatedDims (E : IslEquality) (pairs : List (Nat × SpaceTime)) (p_occ : IslMap) :
    List Nat :=
  eliminatedDimsPtr E pairs (some p_occ)

/-- The tuple `x` without the coordinates `ds`, dropped one after the other
in the order of `ds`. -/
def dropAll (ds : List Nat) (x : List Int) : List Int :=
  ds.foldl (fun y d => dropDims y d 1) x

/-- The tag is `Spatial` or `PipelineSpatial`. -/
def isSpatialTag : SpaceTime → Bool
  | .Spatial => true
  | .PipelineSpatial => true
  | _ => false

/-- Coordinate `d` has one value over the whole domain of `p`. -/
def SingleValued (p : IslMap) (d : Nat) : Prop :=
  ∃ v : Int, ∀ x y, p.rel x y → x[d]? = some v

/-- The pairs expected of a flat nest with `n` loops, declared boundaries `B`
and data-spaces `D`: the boundaries below `n`, each once and in ascending
order, are numbered from 0; the boundary `b` of number `k` gives, for each
data-space, the buffer with id `k`, that data-space and leaf 0, at level
`b`. -/
def nestPairs (n : Nat) (B : List Nat) (D : List (Nat × String)) :
    List (LogicalBuffer × Nat) :=
  (((List.range n).filter fun b => decide (b ∈ B)).enum).flatMap fun kb =>
    D.map fun e => ((⟨kb.1, e.1, 0⟩ : LogicalBuffer), kb.2)

/-- A flat nest of three loops with the declared boundaries 2, 0, 0 and 5. -/
def nest_three_loops : Nest Unit :=
  ⟨[(), (), ()], [2, 0, 0, 5]⟩

/-- A workload with two data-spaces, of ids 0 and 1. -/
def workload_ab : Workload :=
  ⟨⟨2, 0, [("A", 0), ("B", 1)], [(0, 1), (1, 1)], [[[(0, 0)]], [[(0, 1)]]],
    [(0, "A"), (1, "B")]⟩, fun _ => 1⟩

/-! ## Lemmas on isl maps -/

theorem IslMap.ext_rel {a b : IslMap} (h1 : a.n_in = b.n_in) (h2 : a.n_out = b.n_out)
    (h0 : a.in_name = b.in_name) (h3 : ∀ x y, a.rel x y ↔ b.rel x y) : a = b := by
  cases a with
  | mk ai ao an ar aw =>
    cases b with
    | mk bi bo bn br bw =>
      simp only at h1 h2 h0 h3
      subst h1
      subst h2
      subst h0
      have hr : ar = br := by
        funext x y
        exact propext (h3 x y)
      subst hr
      rfl

theorem IslEquality.test_eq_true_iff (E : IslEquality) (a b : IslMap) :
    (E.isl_map_plain_is_equal a b || E.isl_map_is_equal a b) = true ↔ a = b := by
  rw [Bool.or_eq_true]
  constructor
  · rintro (h | h)
    · exact E.plain_sound a b h
    · exact (E.is_equal_iff a b).1 h
  · intro h
    exact Or.inr ((E.is_equal_iff a b).2 h)

theorem isl_bool.holds_ite (c : Bool) :
    (if c = true then isl_bool.isl_bool_true else isl_bool.isl_bool_false).holds = c := by
  cases c <;> rfl

/-- On a missing map every call of the check yields a missing map, both
tests answer with an error, and the condition of line 83 holds. -/
theorem trivialCheck_null (E : IslEquality) (d : Nat) : trivialCheck E none d = (none, true) :=
  rfl

/-- On a dimension of the relation the projection exists and has an unnamed
input tuple.  When the input tuple of the relation has no name, the check
decides `TrivialDim`; when it has a name, the intersection with the domain
fails and the condition of line 83 holds. -/
theorem trivialCheck_of_lt (E : IslEquality) (p : IslMap) (d : Nat) (h : d < p.n_in) :
    ∃ proj b, isl_map_project_out p .isl_dim_in d 1 = some proj ∧
      trivialCheck E (some p) d = (some proj, b) ∧
      (p.in_name = none → (b = true ↔ TrivialDim p d)) ∧
      (p.in_name ≠ none → b = true) ∧
      proj.n_in = p.n_in - 1 ∧ proj.n_out = p.n_out ∧ proj.in_name = none ∧
      ∀ x y, proj.rel x y ↔ ∃ x0, p.rel x0 y ∧ x = dropDims x0 d 1 := by
  have hp : d + 1 ≤ p.n_in := h
  have hi : d ≤ p.n_in - 1 := by omega
  have hn : p.n_in = p.n_in - 1 + 1 := by omega
  by_cases hname : p.in_name = none
  · have hc : p.n_in = p.n_in - 1 + 1 ∧ p.in_name = none := ⟨hn, hname⟩
    simp only [trivialCheck, Option.some_bind, isl_map_project_out, dif_pos hp,
      isl_map_insert_dims, if_pos hi, isl_map_intersect_domain, isl_map_domain, if_pos hc,
      IslEquality.plain_is_equal, IslEquality.is_equal, isl_bool.holds_ite]
    refine ⟨_, _, rfl, rfl, ?_, fun h0 => absurd hname h0, rfl, rfl, rfl, fun _ _ => Iff.rfl⟩
    intro _
    rw [IslEquality.test_eq_true_iff]
    constructor
    · intro heq x x0 y y0 hx hx0 hd
      rw [heq]
      exact ⟨⟨by rw [(p.wf x y0 hx).1]; omega, x0, hx0, hd⟩, y0, hx⟩
    · intro ht
      refine IslMap.ext_rel hn rfl hname ?_
      intro x y
      constructor
      · intro hxy
        exact ⟨⟨by rw [(p.wf x y hxy).1]; omega, x, hxy, rfl⟩, y, hxy⟩
      · rintro ⟨⟨_, x0, hx0, hd⟩, y0, hy0⟩
        exact ht x x0 y y0 hy0 hx0 hd
  · have hc : ¬ (p.n_in = p.n_in - 1 + 1 ∧ p.in_name = none) := fun h0 => hname h0.2
    simp only [trivialCheck, Option.some_bind, isl_map_project_out, dif_pos hp,
      isl_map_insert_dims, if_pos hi, isl_map_intersect_domain, isl_map_domain, if_neg hc,
      IslEquality.plain_is_equal, IslEquality.is_equal]
    exact ⟨_, _, rfl, rfl, fun h0 => absurd h0 hname, fun _ => rfl, rfl, rfl, rfl,
      fun _ _ => Iff.rfl⟩

/-- Beyond the dimensions of the relation the projection fails, both tests
answer with an error, and the condition of line 83 holds. -/
theorem trivialCheck_of_not_lt (E : IslEquality) (p : IslMap) (d : Nat) (h : ¬ d < p.n_in) :
    trivialCheck E (some p) d = (none, true) := by
  have hp : ¬ (d + 1 ≤ p.n_in) := by omega
  simp only [trivialCheck, Option.some_bind, isl_map_project_out, dif_neg hp, Option.none_bind,
    IslEquality.plain_is_equal, IslEquality.is_equal]
  rfl

/-! ## The loop of `FillFromOccupancy` -/

theorem enum_reverse_concat (l : List SpaceTime) (a : SpaceTime) :
    (l ++ [a]).enum.reverse = (l.length, a) :: l.enum.reverse := by
  simp [List.enum_append, List.enumFrom_singleton]

theorem eraseIdx_length_append (l s : List SpaceTime) (a : SpaceTime) :
    (l ++ a :: s).eraseIdx l.length = l ++ s := by
  simp [List.eraseIdx_append_of_length_le]

/-- Once the pointer is missing it stays missing to the end of the loop. -/
theorem scanLoopPtr_null (E : IslEquality) (l : List (Nat × SpaceTime)) :
    ∀ tags, (scanLoopPtr E l none tags).1 = none := by
  induction l with
  | nil =>
    intro tags
    rfl
  | cons e l ih =>
    intro tags
    obtain ⟨i, t⟩ := e
    by_cases ht : isTemporalTag t = true
    · simp only [scanLoopPtr, ht, Bool.not_true, Bool.false_eq_true, if_false,
        trivialCheck_null]
      exact ih _
    · have hf : isTemporalTag t = false := by simpa using ht
      simp only [scanLoopPtr, hf, Bool.not_false, if_true]
      exact ih _

theorem scanLoop_nil (E : IslEquality) (p : IslMap) (tags : List SpaceTime) :
    scanLoop E [] p tags = some (p, tags, none) :=
  rfl

/-- A pair whose tag is not of the temporal class is passed over. -/
theorem scanLoop_cons_skip (E : IslEquality) (i : Nat) (t : SpaceTime)
    (rest : List (Nat × SpaceTime)) (p : IslMap) (tags : List SpaceTime)
    (ht : isTemporalTag t = false) :
    scanLoop E ((i, t) :: rest) p tags = scanLoop E rest p tags := by
  simp only [scanLoop, scanLoopPtr, ht, Bool.not_false, if_true]

/-- A dimension of the temporal class that passes the check is eliminated. -/
theorem scanLoop_cons_elim (E : IslEquality) (i : Nat) (t : SpaceTime)
    (rest : List (Nat × SpaceTime)) (p proj : IslMap) (tags : List SpaceTime)
    (ht : isTemporalTag t = true) (hc : trivialCheck E (some p) i = (some proj, true)) :
    scanLoop E ((i, t) :: rest) p tags = scanLoop E rest proj (tags.eraseIdx i) := by
  simp only [scanLoop, scanLoopPtr, ht, Bool.not_true, Bool.false_eq_true, if_false, hc]

/-- When the projection fails on a dimension of the temporal class, the loop
goes on with a missing map and the function returns nothing. -/
theorem scanLoop_cons_null (E : IslEquality) (i : Nat) (t : SpaceTime)
    (rest : List (Nat × SpaceTime)) (p : IslMap) (tags : List SpaceTime)
    (ht : isTemporalTag t = true) (hc : trivialCheck E (some p) i = (none, true)) :
    scanLoop E ((i, t) :: rest) p tags = none := by
  simp only [scanLoop, scanLoopPtr, ht, Bool.not_true, Bool.false_eq_true, if_false, hc]
  have h := scanLoopPtr_null E rest (tags.eraseIdx i)
  rcases hr : scanLoopPtr E rest none (tags.eraseIdx i) with ⟨q, tags1, stop⟩
  rw [hr] at h
  simp only at h
  subst h
  rfl

/-- A dimension of the temporal class that fails the check ends the loop. -/
theorem scanLoop_cons_stop (E : IslEquality) (i : Nat) (t : SpaceTime)
    (rest : List (Nat × SpaceTime)) (p : IslMap) (q : Option IslMap) (tags : List SpaceTime)
    (ht : isTemporalTag t = true) (hc : trivialCheck E (some p) i = (q, false)) :
    scanLoop E ((i, t) :: rest) p tags = some (p, tags, some i) := by
  simp only [scanLoop, scanLoopPtr, ht, Bool.not_true, Bool.false_eq_true, if_false, hc]

/-- Under the tag invariant the loop ends with a result, the invariant holds
for the result, and a dimension the loop stops at is a dimension of the
result. -/
theorem scanLoop_tagsMatch (E : IslEquality) (l : List SpaceTime) :
    ∀ (p : IslMap) (s : List SpaceTime), (l ++ s).length = p.n_in →
      ∃ p1 tags1 stop, scanLoop E l.enum.reverse p (l ++ s) = some (p1, tags1, stop) ∧
        tags1.length = p1.n_in ∧ p1.n_out = p.n_out ∧ ∀ d, stop = some d → d < p1.n_in := by
  induction l using List.reverseRecOn with
  | nil =>
    intro p s h
    exact ⟨p, s, none, by simp [scanLoop_nil], by simpa using h, rfl, by simp⟩
  | append_singleton l a ih =>
    intro p s h
    rw [enum_reverse_concat, List.append_assoc, List.singleton_append]
    have hlen : (l ++ a :: s).length = p.n_in := by simpa using h
    by_cases ht : isTemporalTag a = true
    · have hd : l.length < p.n_in := by
        rw [← hlen, List.length_append, List.length_cons]
        omega
      obtain ⟨proj, b, -, hc, -, -, hn, ho, -⟩ := trivialCheck_of_lt E p l.length hd
      cases b with
      | true =>
        have hl : (l ++ s).length = proj.n_in := by
          rw [hn, ← hlen]
          simp
        obtain ⟨p1, tags1, stop, h1, h2, h3, h4⟩ := ih proj s hl
        refine ⟨p1, tags1, stop, ?_, h2, h3.trans ho, h4⟩
        rw [scanLoop_cons_elim E _ _ _ _ _ _ ht hc, eraseIdx_length_append]
        exact h1
      | false =>
        refine ⟨p, l ++ a :: s, some l.length, scanLoop_cons_stop E _ _ _ _ _ _ ht hc, hlen,
          rfl, ?_⟩
        intro d hd0
        cases hd0
        exact hd
    · have hf : isTemporalTag a = false := by simpa using ht
      obtain ⟨p1, tags1, stop, h1, h2, h3, h4⟩ := ih p (a :: s) hlen
      refine ⟨p1, tags1, stop, ?_, h2, h3, h4⟩
      rw [scanLoop_cons_skip E _ _ _ _ _ hf]
      exact h1

/-- Pairs whose tag is not of the temporal class are passed over. -/
theorem scanLoop_skip (E : IslEquality) (ys rest : List (Nat × SpaceTime)) (p : IslMap)
    (tags : List SpaceTime) (h : ∀ e ∈ ys, isTemporalTag e.2 = false) :
    scanLoop E (ys ++ rest) p tags = scanLoop E rest p tags := by
  induction ys with
  | nil => rfl
  | cons e ys ih =>
    obtain ⟨i, t⟩ := e
    have ht : isTemporalTag t = false := h (i, t) (List.mem_cons_self _ _)
    rw [List.cons_append, scanLoop_cons_skip E _ _ _ _ _ ht]
    exact ih fun e he => h e (List.mem_cons_of_mem _ he)

theorem enumFrom_reverse_tags (n : Nat) (s : List SpaceTime)
    (h : ∀ t ∈ s, isTemporalTag t = false) :
    ∀ e ∈ (List.enumFrom n s).reverse, isTemporalTag e.2 = false := by
  intro e he
  obtain ⟨i, t⟩ := e
  rw [List.mem_reverse] at he
  obtain ⟨-, -, h3⟩ := List.mem_enumFrom he
  rw [h3]
  exact h _ (List.getElem_mem _)

/-- Running the loop on its own result changes nothing: the loop ends with
the same relation, the same tags and the same stopping dimension. -/
theorem scanLoop_rerun (E : IslEquality) (l : List SpaceTime) :
    ∀ (p : IslMap) (s : List SpaceTime), (∀ t ∈ s, isTemporalTag t = false) →
      ∀ r, scanLoop E l.enum.reverse p (l ++ s) = some r →
        scanLoop E r.2.1.enum.reverse r.1 r.2.1 = some r := by
  induction l using List.reverseRecOn with
  | nil =>
    intro p s hs r hr
    simp only [List.enum_nil, List.reverse_nil, scanLoop_nil, List.nil_append,
      Option.some.injEq] at hr
    subst hr
    have hk := scanLoop_skip E s.enum.reverse [] p s (enumFrom_reverse_tags 0 s hs)
    rw [List.append_nil] at hk
    rw [hk]
    rfl
  | append_singleton l a ih =>
    intro p s hs r hr
    rw [enum_reverse_concat, List.append_assoc, List.singleton_append] at hr
    by_cases ht : isTemporalTag a = true
    · rcases hc : trivialCheck E (some p) l.length with ⟨q, b⟩
      cases b with
      | true =>
        cases q with
        | none =>
          rw [scanLoop_cons_null E _ _ _ _ _ ht hc] at hr
          cases hr
        | some proj =>
          rw [scanLoop_cons_elim E _ _ _ _ _ _ ht hc, eraseIdx_length_append] at hr
          exact ih proj s hs r hr
      | false =>
        rw [scanLoop_cons_stop E _ _ _ _ _ _ ht hc, Option.some.injEq] at hr
        subst hr
        simp only
        rw [List.enum_append, List.reverse_append, List.enumFrom_cons, List.reverse_cons,
          List.append_assoc, List.singleton_append,
          scanLoop_skip E _ _ _ _ (enumFrom_reverse_tags _ s hs)]
        exact scanLoop_cons_stop E _ _ _ _ _ _ ht hc
    · have hf : isTemporalTag a = false := by simpa using ht
      rw [scanLoop_cons_skip E _ _ _ _ _ hf] at hr
      refine ih p (a :: s) ?_ r hr
      intro t hmem
      rcases List.mem_cons.1 hmem with h1 | h1
      · rw [h1]
        exact hf
      · exact hs t h1

/-! ## The time shift and the fill -/

theorem dot_replicate_zero (n : Nat) (x : List Int) : dot (List.replicate n 0) x = 0 := by
  induction n generalizing x with
  | zero => simp [dot]
  | succ n ih =>
    cases x with
    | nil => simp [dot]
    | cons a xs => simp [dot, List.replicate_succ, ih]

theorem dot_unit (n : Nat) : ∀ (k : Nat) (x : List Int), k < n →
    dot ((List.replicate n 0).set k 1) x = x.getD k 0 := by
  induction n with
  | zero => intro k x h; omega
  | succ n ih =>
    intro k x h
    cases k with
    | zero =>
      cases x with
      | nil => simp [dot]
      | cons a xs => simp [dot, List.replicate_succ, dot_replicate_zero]
    | succ k =>
      cases x with
      | nil => simp [dot]
      | cons a xs =>
        simp only [List.replicate_succ, List.set_cons_succ, dot, zero_mul, zero_add,
          List.getD_cons_succ]
        exact ih k xs (by omega)

theorem shifted_eval (n d : Nat) (s : Int) (x : List Int) (hx : x.length = n) :
    ((((List.range n).map fun k => (⟨(List.replicate n 0).set k 1, 0⟩ : IslAff)).set d
        ⟨(List.replicate n 0).set d 1, s⟩).map fun a => a.eval x) =
      x.set d (x.getD d 0 + s) := by
  apply List.ext_getElem
  · simp [hx]
  · intro i h1 h2
    have hi : i < n := by simpa using h1
    simp only [List.getElem_map, List.getElem_set, List.getElem_range]
    by_cases hdi : d = i
    · subst hdi
      simp only [if_true, IslAff.eval]
      rw [dot_unit n d x hi]
      omega
    · simp only [if_neg hdi, IslAff.eval, zero_add]
      rw [dot_unit n i x hi, List.getD_eq_getElem x 0 (by omega)]

theorem map_to_shifted_spec (n d : Nat) (s : Int) (name : Option String) (h : d < n) :
    ∃ m, map_to_shifted ⟨0, n, name⟩ d s = some m ∧ m.n_in = n ∧ m.n_out = n ∧
      m.in_name = name ∧
      ∀ x z, m.rel x z ↔ x.length = n ∧ z = x.set d (x.getD d 0 + s) := by
  have hg : ((List.range n).map fun k => (⟨(List.replicate n 0).set k 1, 0⟩ : IslAff))[d]? =
      some ⟨(List.replicate n 0).set d 1, 0⟩ := by
    simp [List.getElem?_map, List.getElem?_range h]
  simp only [map_to_shifted, isl_multi_aff_identity_on_domain_space, isl_multi_aff_get_at, hg,
    isl_multi_aff_set_at, isl_aff_set_constant_si, List.length_map, List.length_range,
    List.length_set, List.length_replicate, h, and_self, if_true]
  refine ⟨_, rfl, rfl, by simp [isl_map_from_multi_aff], rfl, ?_⟩
  intro x z
  simp only [isl_map_from_multi_aff]
  constructor
  · rintro ⟨hx, hz⟩
    exact ⟨hx, by rw [hz, shifted_eval n d s x hx]⟩
  · rintro ⟨hx, hz⟩
    exact ⟨hx, by rw [hz, shifted_eval n d s x hx]⟩

/-- In single-loop mode the fill at a dimension `d` of the relation exists and
holds the pairs of the relation whose predecessor along `d` does not reach the
same address. -/
theorem fillAt_spec (p : IslMap) (d : Nat) (h : d < p.n_in) :
    ∃ f, fillAt p d false = some f ∧ f.n_in = p.n_in ∧ f.n_out = p.n_out ∧
      f.in_name = p.in_name ∧
      ∀ x a, f.rel x a ↔ p.rel x a ∧ ¬ p.rel (x.set d (x.getD d 0 - 1)) a := by
  obtain ⟨m, hm, hmi, hmo, hmn, hrel⟩ := map_to_shifted_spec p.n_in d (-1) p.in_name h
  have ha : m.n_out = p.n_in := hmo
  simp only [fillAt, Bool.not_false, if_true, isl_space_domain, isl_map_get_space, hm,
    isl_map_apply_range, if_pos ha, isl_map_subtract]
  rw [if_pos ⟨hmi.symm, trivial, hmn.symm⟩]
  refine ⟨_, rfl, rfl, rfl, rfl, ?_⟩
  intro x a
  simp only
  constructor
  · rintro ⟨hp, hn⟩
    refine ⟨hp, fun hq => hn ⟨_, (hrel x _).2 ⟨(p.wf x a hp).1, rfl⟩, ?_⟩⟩
    simpa [sub_eq_add_neg] using hq
  · rintro ⟨hp, hn⟩
    refine ⟨hp, ?_⟩
    rintro ⟨y, hy, hq⟩
    rw [(hrel x y).1 hy |>.2] at hq
    exact hn (by simpa [sub_eq_add_neg] using hq)

theorem trivialCheck_lt (E : IslEquality) (p : IslMap) (d : Nat) (q : Option IslMap)
    (h : trivialCheck E (some p) d = (q, false)) : d < p.n_in := by
  by_contra hn
  rw [trivialCheck_of_not_lt E p d hn] at h
  cases h

/-- A dimension the loop stops at is a dimension of the relation it ends
with. -/
theorem scanLoop_stop_lt (E : IslEquality) (l : List (Nat × SpaceTime)) :
    ∀ (p : IslMap) (tags : List SpaceTime) (p1 : IslMap) (tags1 : List SpaceTime) (d : Nat),
      scanLoop E l p tags = some (p1, tags1, some d) → d < p1.n_in := by
  induction l with
  | nil =>
    intro p tags p1 tags1 d h
    simp [scanLoop_nil] at h
  | cons e l ih =>
    intro p tags p1 tags1 d h
    obtain ⟨i, t⟩ := e
    by_cases ht : isTemporalTag t = true
    · rcases hc : trivialCheck E (some p) i with ⟨q, b⟩
      cases b with
      | true =>
        cases q with
        | none =>
          rw [scanLoop_cons_null E _ _ _ _ _ ht hc] at h
          cases h
        | some proj =>
          rw [scanLoop_cons_elim E _ _ _ _ _ _ ht hc] at h
          exact ih _ _ _ _ _ h
      | false =>
        rw [scanLoop_cons_stop E _ _ _ _ _ _ ht hc] at h
        simp only [Option.some.injEq, Prod.mk.injEq] at h
        obtain ⟨h1, -, h3⟩ := h
        subst h1
        subst h3
        exact trivialCheck_lt E _ _ _ hc
    · have hf : isTemporalTag t = false := by simpa using ht
      rw [scanLoop_cons_skip E _ _ _ _ _ hf] at h
      exact ih _ _ _ _ _ h

/-! ## Example occupancies -/

theorem not_trivialDim_t : ¬ TrivialDim map_t_to_t 0 := by
  intro h
  have h1 : map_t_to_t.rel [0] [1] :=
    h [0] [1] [1] [0] ⟨0, rfl, rfl⟩ ⟨1, rfl, rfl⟩ (by simp [dropDims])
  obtain ⟨t, h2, h3⟩ := h1
  simp only [List.cons.injEq, and_true] at h2 h3
  omega

theorem scanLoop_occ_t (E : IslEquality) :
    scanLoop E occ_t.dim_in_tags.enum.reverse occ_t.map occ_t.dim_in_tags =
      some (map_t_to_t, [.Temporal], some 0) := by
  obtain ⟨proj, b, -, hc, hb, -⟩ := trivialCheck_of_lt E map_t_to_t 0 (by decide)
  cases b with
  | true => exact absurd ((hb rfl).1 rfl) not_trivialDim_t
  | false => exact scanLoop_cons_stop E 0 .Temporal [] map_t_to_t _ [.Temporal] rfl hc

theorem fill_occ_t (E : IslEquality) :
    FillFromOccupancy E occ_t false = some (occ_t, ⟨[.Temporal], map_t_to_t⟩) := by
  obtain ⟨f, hf, hi, ho, hfn, hrel⟩ := fillAt_spec map_t_to_t 0 (by decide)
  have hfe : f = map_t_to_t := by
    refine IslMap.ext_rel hi ho hfn ?_
    intro x a
    rw [hrel]
    constructor
    · exact fun h => h.1
    · intro h
      refine ⟨h, ?_⟩
      obtain ⟨t, rfl, rfl⟩ := h
      rintro ⟨s, h2, h3⟩
      simp only [List.set_cons_zero, List.getD_cons_zero, List.cons.injEq, and_true] at h2 h3
      omega
  simp only [FillFromOccupancy, scanLoop_occ_t, hf, hfe]
  rfl

theorem trivialDim_ij_0 : TrivialDim map_ij_to_j 0 := by
  rintro x x0 y y0 ⟨i, j, rfl, rfl⟩ ⟨i0, j0, rfl, rfl⟩ hd
  simp only [dropDims, List.take_zero, List.nil_append, zero_add, List.drop_succ_cons,
    List.drop_zero, List.cons.injEq, and_true] at hd
  exact ⟨i, j, rfl, by rw [hd]⟩

theorem not_trivialDim_ij_1 : ¬ TrivialDim map_ij_to_j 1 := by
  intro h
  have h1 : map_ij_to_j.rel [0, 0] [1] :=
    h [0, 0] [0, 1] [1] [0] ⟨0, 0, rfl, rfl⟩ ⟨0, 1, rfl, rfl⟩ (by simp [dropDims])
  obtain ⟨i, j, h2, h3⟩ := h1
  simp only [List.cons.injEq, and_true] at h2 h3
  omega

theorem project_ij_0 (proj : IslMap) (hn : proj.n_in = map_ij_to_j.n_in - 1)
    (ho : proj.n_out = map_ij_to_j.n_out) (h0 : proj.in_name = none)
    (hr : ∀ x y, proj.rel x y ↔ ∃ x0, map_ij_to_j.rel x0 y ∧ x = dropDims x0 0 1) :
    proj = map_t_to_t := by
  refine IslMap.ext_rel hn ho h0 ?_
  intro x y
  rw [hr]
  constructor
  · rintro ⟨x0, ⟨i, j, rfl, rfl⟩, rfl⟩
    exact ⟨j, by simp [dropDims], rfl⟩
  · rintro ⟨t, rfl, rfl⟩
    exact ⟨[0, t], ⟨0, t, rfl, rfl⟩, by simp [dropDims]⟩

theorem trivialCheck_ij_0 (E : IslEquality) :
    trivialCheck E (some map_ij_to_j) 0 = (some map_t_to_t, true) := by
  obtain ⟨proj, b, -, hc, hb, -, hn, ho, h0, hr⟩ :=
    trivialCheck_of_lt E map_ij_to_j 0 (by decide)
  have hp := project_ij_0 proj hn ho h0 hr
  subst hp
  cases b with
  | false => exact absurd ((hb rfl).2 trivialDim_ij_0) (by simp)
  | true => exact hc

theorem trivialCheck_ij_1 (E : IslEquality) :
    ∃ q, trivialCheck E (some map_ij_to_j) 1 = (q, false) := by
  obtain ⟨proj, b, -, hc, hb, -⟩ := trivialCheck_of_lt E map_ij_to_j 1 (by decide)
  cases b with
  | true => exact absurd ((hb rfl).1 rfl) not_trivialDim_ij_1
  | false => exact ⟨_, hc⟩

/-- With `j` not of the temporal class, the loop passes over `j`, eliminates
`i` and runs to its end. -/
theorem scanLoop_occ_ij_spatial (E : IslEquality) (tag_j : SpaceTime)
    (h : isTemporalTag tag_j = false) :
    scanLoop E (occ_ij tag_j).dim_in_tags.enum.reverse (occ_ij tag_j).map
        (occ_ij tag_j).dim_in_tags = some (map_t_to_t, [tag_j], none) := by
  have e : (occ_ij tag_j).dim_in_tags.enum.reverse = [(1, tag_j), (0, .Temporal)] := rfl
  rw [e, scanLoop_cons_skip E _ _ _ _ _ h]
  exact (scanLoop_cons_elim E 0 .Temporal [] map_ij_to_j map_t_to_t [.Temporal, tag_j] rfl
    (trivialCheck_ij_0 E)).trans rfl

/-- With `j` not of the temporal class, `FillFromOccupancy` returns
`{(j) -> j}` as effective occupancy and as fill. -/
theorem fill_occ_ij_spatial (E : IslEquality) (tag_j : SpaceTime)
    (h : isTemporalTag tag_j = false) (multi_loop_reuse : Bool) :
    FillFromOccupancy E (occ_ij tag_j) multi_loop_reuse =
      some (⟨[tag_j], map_t_to_t⟩, ⟨[tag_j], map_t_to_t⟩) := by
  simp only [FillFromOccupancy, scanLoop_occ_ij_spatial E tag_j h]

/-- With `j` of the temporal class, the loop stops at `j` and keeps `i`. -/
theorem scanLoop_occ_ij_temporal (E : IslEquality) (tag_j : SpaceTime)
    (h : isTemporalTag tag_j = true) :
    scanLoop E (occ_ij tag_j).dim_in_tags.enum.reverse (occ_ij tag_j).map
        (occ_ij tag_j).dim_in_tags =
      some (map_ij_to_j, [.Temporal, tag_j], some 1) := by
  obtain ⟨q, hc⟩ := trivialCheck_ij_1 E
  exact scanLoop_cons_stop E 1 tag_j [(0, .Temporal)] map_ij_to_j q [.Temporal, tag_j] h hc

/-- On `{S(t) -> t}` the intersection with the domain fails on the name `S`,
the condition of line 83 holds, and the check hands on `{() -> o}`. -/
theorem trivialCheck_S_t (E : IslEquality) :
    trivialCheck E (some map_S_t_to_t) 0 = (some map_unit_to_all, true) := by
  obtain ⟨proj, b, -, hc, -, hb, hn, ho, h0, hr⟩ :=
    trivialCheck_of_lt E map_S_t_to_t 0 (by decide)
  have hp : proj = map_unit_to_all := by
    refine IslMap.ext_rel hn ho h0 ?_
    intro x y
    rw [hr]
    constructor
    · rintro ⟨x0, ⟨t, rfl, rfl⟩, rfl⟩
      exact ⟨by simp [dropDims], t, rfl⟩
    · rintro ⟨rfl, t, rfl⟩
      exact ⟨[t], ⟨t, rfl, rfl⟩, by simp [dropDims]⟩
  subst hp
  rw [hc, hb (by simp [map_S_t_to_t])]

/-- On `{S(t) -> t}` with `t` tagged `Temporal` the loop eliminates `t` and
runs to its end. -/
theorem scanLoop_occ_S_t (E : IslEquality) :
    scanLoop E occ_S_t.dim_in_tags.enum.reverse occ_S_t.map occ_S_t.dim_in_tags =
      some (map_unit_to_all, [], none) := by
  have e : occ_S_t.dim_in_tags.enum.reverse = [(0, .Temporal)] := rfl
  rw [e]
  exact (scanLoop_cons_elim E 0 .Temporal [] map_S_t_to_t map_unit_to_all [.Temporal] rfl
    (trivialCheck_S_t E)).trans rfl

theorem fill_occ_S_t (E : IslEquality) (multi_loop_reuse : Bool) :
    FillFromOccupancy E occ_S_t multi_loop_reuse =
      some (⟨[], map_unit_to_all⟩, ⟨[], map_unit_to_all⟩) := by
  simp only [FillFromOccupancy, scanLoop_occ_S_t E]

/-! ## Results of `FillFromOccupancy` -/

theorem FillFromOccupancy_of_scan_none (E : IslEquality) (occ : Occupancy) (multi : Bool)
    (p1 : IslMap) (tags1 : List SpaceTime)
    (h : scanLoop E occ.dim_in_tags.enum.reverse occ.map occ.dim_in_tags =
      some (p1, tags1, none)) :
    FillFromOccupancy E occ multi = some (⟨tags1, p1⟩, ⟨tags1, p1⟩) := by
  simp [FillFromOccupancy, h]

theorem FillFromOccupancy_of_scan_stop (E : IslEquality) (occ : Occupancy)
    (p1 : IslMap) (tags1 : List SpaceTime) (d : Nat)
    (h : scanLoop E occ.dim_in_tags.enum.reverse occ.map occ.dim_in_tags =
      some (p1, tags1, some d)) :
    ∃ f, FillFromOccupancy E occ false = some (⟨tags1, p1⟩, ⟨tags1, f⟩) ∧
      f.n_in = p1.n_in ∧ f.n_out = p1.n_out ∧
      ∀ x a, f.rel x a ↔ p1.rel x a ∧ ¬ p1.rel (x.set d (x.getD d 0 - 1)) a := by
  have hd := scanLoop_stop_lt E _ _ _ _ _ _ h
  obtain ⟨f, hf, hi, ho, -, hrel⟩ := fillAt_spec p1 d hd
  exact ⟨f, by simp [FillFromOccupancy, h, hf], hi, ho, hrel⟩

/-- Under the tag invariant, single-loop `FillFromOccupancy` returns a result
with one tag list, both relations satisfy the invariant, and the fill is part
of the effective occupancy. -/
theorem FillFromOccupancy_of_tagsMatch (E : IslEquality) (occ : Occupancy)
    (h : occ.TagsMatch) :
    ∃ p1 tags1 f, FillFromOccupancy E occ false = some (⟨tags1, p1⟩, ⟨tags1, f⟩) ∧
      tags1.length = p1.n_in ∧ f.n_in = p1.n_in ∧ ∀ x a, f.rel x a → p1.rel x a := by
  have h0 : (occ.dim_in_tags ++ []).length = occ.map.n_in := by simpa using h
  obtain ⟨p1, tags1, stop, hs, hl, -, -⟩ := scanLoop_tagsMatch E occ.dim_in_tags occ.map [] h0
  rw [List.append_nil] at hs
  cases stop with
  | none =>
    exact ⟨p1, tags1, p1, FillFromOccupancy_of_scan_none E occ false p1 tags1 hs, hl, rfl,
      fun _ _ hx => hx⟩
  | some d =>
    obtain ⟨f, hf, hi, -, hrel⟩ := FillFromOccupancy_of_scan_stop E occ p1 tags1 d hs
    exact ⟨p1, tags1, f, hf, hl, hi, fun x a hx => ((hrel x a).1 hx).1⟩

theorem FillFromOccupancy_rerun (E : IslEquality) (occ : Occupancy) (multi : Bool)
    (eff : Occupancy) (fill : Fill) (h : FillFromOccupancy E occ multi = some (eff, fill)) :
    FillFromOccupancy E eff multi = some (eff, fill) := by
  cases hs : scanLoop E occ.dim_in_tags.enum.reverse occ.map occ.dim_in_tags with
  | none => simp [FillFromOccupancy, hs] at h
  | some r =>
    have hrun := scanLoop_rerun E occ.dim_in_tags occ.map [] (by simp) r
      (by rw [List.append_nil]; exact hs)
    obtain ⟨p1, tags1, stop⟩ := r
    cases stop with
    | none =>
      simp only [FillFromOccupancy, hs, Option.some.injEq, Prod.mk.injEq] at h
      obtain ⟨h1, h2⟩ := h
      subst h1
      subst h2
      simp only at hrun
      simp [FillFromOccupancy, hrun]
    | some d =>
      simp only [FillFromOccupancy, hs] at h
      cases hf : fillAt p1 d multi with
      | none => simp [hf] at h
      | some f =>
        simp only [hf, Option.some.injEq, Prod.mk.injEq] at h
        obtain ⟨h1, h2⟩ := h
        subst h1
        subst h2
        simp only at hrun
        simp [FillFromOccupancy, hrun, hf]

/-! ## Claims on the temporal reuse analysis -/

/-- Claim C1: for an occupancy with one tag per input dimension, analysed with
reuse exploitation on and single-loop reuse, the analysis returns a result
whose fill carries the tag list of the effective occupancy and whose fill
pairs are all pairs of the effective occupancy. -/
theorem fill_subset_effective_occupancy (E : IslEquality) (occ : Occupancy)
    (h : occ.TagsMatch) :
    ∃ out, TemporalReuseAnalysis E ⟨occ, ⟨true, false⟩⟩ = some out ∧
      out.fill.dim_in_tags = out.effective_occupancy.dim_in_tags ∧
      ∀ x a, out.fill.map.rel x a → out.effective_occupancy.map.rel x a := by
  obtain ⟨p1, tags1, f, hf, -, -, hsub⟩ := FillFromOccupancy_of_tagsMatch E occ h
  exact ⟨⟨⟨tags1, p1⟩, ⟨tags1, f⟩⟩, by simp [TemporalReuseAnalysis, hf], rfl, hsub⟩

theorem fill_subset_effective_occupancy_witness :
    occ_t.TagsMatch ∧
      ∃ out, TemporalReuseAnalysis (IslEquality.ofDecEq (Classical.decEq IslMap))
          ⟨occ_t, ⟨true, false⟩⟩ = some out ∧
        out.fill.dim_in_tags = out.effective_occupancy.dim_in_tags ∧
        ∀ x a, out.fill.map.rel x a → out.effective_occupancy.map.rel x a :=
  ⟨rfl, fill_subset_effective_occupancy _ occ_t rfl⟩

/-- Claim C2: in single-loop mode, when the loop of `FillFromOccupancy` stops
at dimension `d`, the function returns the relation and tags the loop ended
with, and a pair `(x, a)` is in the fill exactly when it is in the effective
occupancy and `(x` with coordinate `d` lowered by one`, a)` is not; where the
predecessor of `x` along `d` is outside the domain, the fill at `x` is the
whole occupancy at `x`.  For `{(t) -> t}` with `t` tagged `Temporal` the fill
is `{(t) -> t}`. -/
theorem single_loop_fill_is_occupancy_minus_previous (E : IslEquality) :
    (∀ (occ : Occupancy) (p_occ : IslMap) (tags : List SpaceTime) (d : Nat),
      scanLoop E occ.dim_in_tags.enum.reverse occ.map occ.dim_in_tags =
          some (p_occ, tags, some d) →
        ∃ p_fill, FillFromOccupancy E occ false = some (⟨tags, p_occ⟩, ⟨tags, p_fill⟩) ∧
          (∀ x a, p_fill.rel x a ↔
            p_occ.rel x a ∧ ¬ p_occ.rel (x.set d (x.getD d 0 - 1)) a) ∧
          ∀ x, (¬ ∃ b, p_occ.rel (x.set d (x.getD d 0 - 1)) b) →
            ∀ a, p_fill.rel x a ↔ p_occ.rel x a) ∧
      FillFromOccupancy E occ_t false = some (occ_t, ⟨[.Temporal], map_t_to_t⟩) := by
  refine ⟨?_, fill_occ_t E⟩
  intro occ p_occ tags d h
  obtain ⟨f, hf, -, -, hrel⟩ := FillFromOccupancy_of_scan_stop E occ p_occ tags d h
  refine ⟨f, hf, hrel, ?_⟩
  intro x hx a
  rw [hrel]
  exact ⟨fun h1 => h1.1, fun h1 => ⟨h1, fun h2 => hx ⟨a, h2⟩⟩⟩

theorem single_loop_fill_is_occupancy_minus_previous_witness :
    ∃ p_fill, FillFromOccupancy (IslEquality.ofDecEq (Classical.decEq IslMap)) (occ_ij .Sequential)
          false =
        some (⟨[.Temporal, .Sequential], map_ij_to_j⟩, ⟨[.Temporal, .Sequential], p_fill⟩) ∧
      (∀ x a, p_fill.rel x a ↔
        map_ij_to_j.rel x a ∧ ¬ map_ij_to_j.rel (x.set 1 (x.getD 1 0 - 1)) a) ∧
      ∀ x, (¬ ∃ b, map_ij_to_j.rel (x.set 1 (x.getD 1 0 - 1)) b) →
        ∀ a, p_fill.rel x a ↔ map_ij_to_j.rel x a :=
  (single_loop_fill_is_occupancy_minus_previous _).1 (occ_ij .Sequential) map_ij_to_j _ 1
    (scanLoop_occ_ij_temporal _ .Sequential rfl)

/-- Claim C3: with reuse exploitation off, for either value of
`multi_loop_reuse`, the analysis returns the input occupancy as effective
occupancy and a fill with the relation and tag list of the input. -/
theorem no_reuse_returns_occupancy (E : IslEquality) (occ : Occupancy)
    (multi_loop_reuse : Bool) :
    TemporalReuseAnalysis E ⟨occ, ⟨false, multi_loop_reuse⟩⟩ =
      some ⟨occ, ⟨occ.dim_in_tags, occ.map⟩⟩ := by
  simp [TemporalReuseAnalysis]

/-- Claim C4: for an occupancy with one tag per input dimension, single-loop
`FillFromOccupancy` returns an effective occupancy and a fill that both have
one tag per input dimension of their relation. -/
theorem tags_match_preserved (E : IslEquality) (occ : Occupancy) (h : occ.TagsMatch) :
    ∃ eff fill, FillFromOccupancy E occ false = some (eff, fill) ∧
      eff.TagsMatch ∧ fill.TagsMatch := by
  obtain ⟨p1, tags1, f, hf, hl, hi, -⟩ := FillFromOccupancy_of_tagsMatch E occ h
  exact ⟨⟨tags1, p1⟩, ⟨tags1, f⟩, hf, hl, hl.trans hi.symm⟩

theorem tags_match_preserved_witness :
    (occ_ij .Spatial).TagsMatch ∧
      ∃ eff fill, FillFromOccupancy (IslEquality.ofDecEq (Classical.decEq IslMap))
          (occ_ij .Spatial) false = some (eff, fill) ∧ eff.TagsMatch ∧ fill.TagsMatch :=
  ⟨rfl, tags_match_preserved _ (occ_ij .Spatial) rfl⟩

/-- Claim C5: running single-loop `FillFromOccupancy` on the effective
occupancy it returned returns the same effective occupancy, with the same
relation and tag list (no further dimension is eliminated), and the same
fill. -/
theorem fill_from_occupancy_idempotent (E : IslEquality) (occ : Occupancy)
    (eff : Occupancy) (fill : Fill) (h : FillFromOccupancy E occ false = some (eff, fill)) :
    FillFromOccupancy E eff false = some (eff, fill) :=
  FillFromOccupancy_rerun E occ false eff fill h

theorem fill_from_occupancy_idempotent_witness :
    FillFromOccupancy (IslEquality.ofDecEq (Classical.decEq IslMap)) (occ_ij .Spatial) false =
        some (⟨[.Spatial], map_t_to_t⟩, ⟨[.Spatial], map_t_to_t⟩) ∧
      FillFromOccupancy (IslEquality.ofDecEq (Classical.decEq IslMap))
          ⟨[.Spatial], map_t_to_t⟩ false =
        some (⟨[.Spatial], map_t_to_t⟩, ⟨[.Spatial], map_t_to_t⟩) :=
  ⟨fill_occ_ij_spatial _ .Spatial rfl false,
    fill_from_occupancy_idempotent _ (occ_ij .Spatial) _ _
      (fill_occ_ij_spatial _ .Spatial rfl false)⟩

/-- Claim C6, as the code has it: for `{(i, j) -> j}` with `i` tagged
`Temporal` and `j` tagged `Spatial` or `PipelineSpatial`, the analysis with
reuse exploitation on eliminates `i`: the effective occupancy is
`{(j) -> j}` with the single tag of `j`. -/
theorem trivial_outer_dim_eliminated (E : IslEquality) (tag_j : SpaceTime)
    (multi_loop_reuse : Bool) (h : tag_j = .Spatial ∨ tag_j = .PipelineSpatial) :
    TemporalReuseAnalysis E ⟨occ_ij tag_j, ⟨true, multi_loop_reuse⟩⟩ =
      some ⟨⟨[tag_j], map_t_to_t⟩, ⟨[tag_j], map_t_to_t⟩⟩ := by
  have ht : isTemporalTag tag_j = false := by
    rcases h with h | h <;> rw [h] <;> rfl
  simp [TemporalReuseAnalysis, fill_occ_ij_spatial E tag_j ht multi_loop_reuse]

theorem trivial_outer_dim_eliminated_witness :
    TemporalReuseAnalysis (IslEquality.ofDecEq (Classical.decEq IslMap))
        ⟨occ_ij .Spatial, ⟨true, false⟩⟩ =
      some ⟨⟨[.Spatial], map_t_to_t⟩, ⟨[.Spatial], map_t_to_t⟩⟩ :=
  trivial_outer_dim_eliminated _ .Spatial false (Or.inl rfl)

/-- Claim C6 fails when `j` is tagged `Temporal`: the loop stops at `j`, which
is not trivial, before it reaches `i`; the effective occupancy is the input
relation `{(i, j) -> j}` with both tags. -/
theorem temporal_inner_dim_keeps_outer :
    ∃ out, TemporalReuseAnalysis (IslEquality.ofDecEq (Classical.decEq IslMap))
        ⟨occ_ij .Temporal, ⟨true, false⟩⟩ = some out ∧
      out.effective_occupancy.dim_in_tags = [.Temporal, .Temporal] ∧
      out.effective_occupancy.map = map_ij_to_j ∧
      out.effective_occupancy.map.n_in = 2 ∧
      out.effective_occupancy.map ≠ map_t_to_t := by
  obtain ⟨f, hf, -⟩ := FillFromOccupancy_of_scan_stop _ (occ_ij .Temporal) map_ij_to_j _ 1
    (scanLoop_occ_ij_temporal (IslEquality.ofDecEq (Classical.decEq IslMap)) .Temporal rfl)
  refine ⟨⟨⟨[.Temporal, .Temporal], map_ij_to_j⟩, ⟨[.Temporal, .Temporal], f⟩⟩,
    by simp [TemporalReuseAnalysis, hf], rfl, rfl, rfl, ?_⟩
  intro h
  have h2 : map_ij_to_j.n_in = map_t_to_t.n_in := congrArg IslMap.n_in h
  exact absurd h2 (by decide)

/-! ## Buffers and their iteration levels -/

theorem storagePairs_concat (leaf_id : Nat) (pre : List MappingNode) (x : MappingNode) :
    storagePairs leaf_id (pre ++ [x]) =
      storagePairs leaf_id pre ++
        match x with
        | .Storage buffer dspace =>
          [(⟨buffer, dspace, leaf_id⟩, pre.countP MappingNode.isLoop)]
        | _ => [] := by
  simp only [storagePairs, List.length_append, List.length_singleton, List.range_succ,
    List.filterMap_append]
  congr 1
  · apply List.filterMap_congr
    intro k hk
    have hk1 : k < pre.length := List.mem_range.1 hk
    rw [List.getElem?_append_left hk1, List.take_append_of_le_length (Nat.le_of_lt hk1)]
  · simp only [List.filterMap_cons, List.filterMap_nil, List.getElem?_concat_length,
      List.take_append_of_le_length (Nat.le_refl _), List.take_length]
    cases x <;> rfl

theorem storagePairs_relabel (id : Nat) (pre : List MappingNode) :
    (storagePairs 0 pre).map (fun e => ((⟨e.1.buffer_id, e.1.dspace_id, id⟩ : LogicalBuffer), e.2)) =
      storagePairs id pre := by
  simp only [storagePairs, List.map_filterMap]
  apply List.filterMap_congr
  intro k _
  cases pre[k]? with
  | none => rfl
  | some node => cases node <;> rfl

/-- Before the `Compute` node is met, the visitor holds the number of loops
seen and one pair per `Storage` node seen, with leaf id 0. -/
theorem visit_fold_no_compute (pre : List MappingNode) :
    (∀ node ∈ pre, node.isCompute = false) →
      pre.foldl BufferIterLevelsFromMapping.visit (0, []) =
        (pre.countP MappingNode.isLoop, storagePairs 0 pre) := by
  induction pre using List.reverseRecOn with
  | nil =>
    intro _
    rfl
  | append_singleton pre x ih =>
    intro h
    have hpre : ∀ node ∈ pre, node.isCompute = false :=
      fun node hn => h node (List.mem_append_left _ hn)
    have hx : x.isCompute = false := h x (by simp)
    rw [List.foldl_append, ih hpre, storagePairs_concat, List.countP_append]
    cases x with
    | For a b => simp [BufferIterLevelsFromMapping.visit, MappingNode.isLoop]
    | ParFor a b => simp [BufferIterLevelsFromMapping.visit, MappingNode.isLoop]
    | Storage a b => simp [BufferIterLevelsFromMapping.visit, MappingNode.isLoop]
    | Compute a b => simp [MappingNode.isCompute] at hx
    | Other => simp [BufferIterLevelsFromMapping.visit, MappingNode.isLoop]

theorem visit_fold_path (pre : List MappingNode) (id : Nat) (spec : Option IslPwMultiAff)
    (h : ∀ node ∈ pre, node.isCompute = false) :
    ((pre ++ [MappingNode.Compute id spec]).foldl BufferIterLevelsFromMapping.visit (0, [])).2 =
      storagePairs (leafIdOf (pre ++ [MappingNode.Compute id spec])) (pre ++ [MappingNode.Compute id spec]) := by
  have hl : leafIdOf (pre ++ [MappingNode.Compute id spec]) = id := by
    simp [leafIdOf]
  rw [List.foldl_append, visit_fold_no_compute pre h, hl, storagePairs_concat]
  simp only [List.foldl_cons, List.foldl_nil, BufferIterLevelsFromMapping.visit,
    List.append_nil]
  exact storagePairs_relabel id pre

theorem foldl_append_flatMap {α β : Type} (f g : α → List β) (l : List α) :
    ∀ acc : List β, (∀ a ∈ l, f a = g a) →
      l.foldl (fun result a => result ++ f a) acc = acc ++ l.flatMap g := by
  induction l with
  | nil =>
    intro acc _
    simp
  | cons a l ih =>
    intro acc h
    rw [List.foldl_cons, ih _ (fun b hb => h b (List.mem_cons_of_mem _ hb)),
      h a (List.mem_cons_self _ _), List.flatMap_cons, List.append_assoc]

/-- Claim C9: when every path of the mapping consists of nodes that are not
`Compute` nodes followed by one `Compute` node, the tree form of
`BufferIterLevelsFromMapping` returns, path after path and with no pair
dropped, one pair per `Storage` node in node order: the buffer with the
buffer and data-space of the node and the id of the `Compute` node of the
path, and the number of `For` and `ParFor` nodes before the `Storage` node. -/
theorem buffer_iter_levels_of_paths (mapping : FusedMapping)
    (h : ∀ path ∈ GetPaths mapping, ∃ pre id spec,
      path = pre ++ [MappingNode.Compute id spec] ∧ ∀ node ∈ pre, node.isCompute = false) :
    BufferIterLevelsFromMapping mapping =
      (GetPaths mapping).flatMap fun path => storagePairs (leafIdOf path) path := by
  unfold BufferIterLevelsFromMapping
  rw [foldl_append_flatMap _ (fun path => storagePairs (leafIdOf path) path)]
  · simp
  · intro path hp
    obtain ⟨pre, id, spec, rfl, hpre⟩ := h path hp
    exact visit_fold_path pre id spec hpre

theorem buffer_iter_levels_of_paths_witness :
    (∀ path ∈ GetPaths mapping_two_paths, ∃ pre id spec,
      path = pre ++ [MappingNode.Compute id spec] ∧ ∀ node ∈ pre, node.isCompute = false) ∧
    BufferIterLevelsFromMapping mapping_two_paths =
      (GetPaths mapping_two_paths).flatMap fun path => storagePairs (leafIdOf path) path :=
  have h : ∀ path ∈ GetPaths mapping_two_paths, ∃ pre id spec,
      path = pre ++ [MappingNode.Compute id spec] ∧ ∀ node ∈ pre, node.isCompute = false := by
    intro path hp
    simp only [GetPaths, mapping_two_paths, List.mem_cons, List.mem_singleton,
      List.not_mem_nil, or_false] at hp
    rcases hp with rfl | rfl
    · refine ⟨[.Storage 0 0, .For 0 none], 1, none, rfl, ?_⟩
      intro node hn
      simp only [List.mem_cons, List.mem_singleton, List.not_mem_nil, or_false] at hn
      rcases hn with rfl | rfl <;> rfl
    · refine ⟨[.Storage 0 0, .ParFor 0 none, .Storage 1 0], 2, none, rfl, ?_⟩
      intro node hn
      simp only [List.mem_cons, List.mem_singleton, List.not_mem_nil, or_false] at hn
      rcases hn with rfl | rfl | rfl <;> rfl
  ⟨h, buffer_iter_levels_of_paths mapping_two_paths h⟩

/-! ## `std::map` -/

theorem StdMap.at_append {K V : Type} [DecidableEq K] (m m1 : StdMap K V) (k : K) :
    StdMap.at (m ++ m1) k =
      match StdMap.at m k with
      | some v => some v
      | none => StdMap.at m1 k := by
  induction m with
  | nil => rfl
  | cons e m ih =>
    obtain ⟨k0, v0⟩ := e
    by_cases hk : k0 = k
    · simp [StdMap.at, hk]
    · simp only [List.cons_append, StdMap.at, if_neg hk]
      exact ih

theorem StdMap.at_emplace_of_some {K V : Type} [DecidableEq K] (m : StdMap K V) (k : K) (v : V)
    (k0 : K) (v0 : V) (h : StdMap.at m k0 = some v0) :
    StdMap.at (m.emplace k v) k0 = some v0 := by
  unfold StdMap.emplace
  cases hk : StdMap.at m k with
  | some w => exact h
  | none =>
    simp only
    rw [StdMap.at_append, h]

theorem StdMap.at_emplace_self {K V : Type} [DecidableEq K] (m : StdMap K V) (k : K) (v : V)
    (h : StdMap.at m k = none) : StdMap.at (m.emplace k v) k = some v := by
  unfold StdMap.emplace
  simp only [h]
  rw [StdMap.at_append, h]
  simp [StdMap.at]

theorem StdMap.at_emplace_ne {K V : Type} [DecidableEq K] (m : StdMap K V) (k : K) (v : V)
    (k0 : K) (hne : k ≠ k0) : StdMap.at (m.emplace k v) k0 = StdMap.at m k0 := by
  unfold StdMap.emplace
  cases hk : StdMap.at m k with
  | some w => rfl
  | none =>
    simp only
    rw [StdMap.at_append]
    cases StdMap.at m k0 with
    | some w => rfl
    | none => simp [StdMap.at, hne]

/-! ## Branch tilings -/

theorem tiling_visit_no_compute (T : TilingCoefTrackerFns) (post : List MappingNode) :
    (∀ node ∈ post, node.isCompute = false) →
      ∀ state, (post.foldl (TilingFromMapping.visit T) state).2 = state.2 := by
  induction post with
  | nil =>
    intro _ state
    rfl
  | cons x post ih =>
    intro h state
    have hx : x.isCompute = false := h x (List.mem_cons_self _ _)
    rw [List.foldl_cons, ih (fun node hn => h node (List.mem_cons_of_mem _ hn))]
    obtain ⟨ct, spec, leaf⟩ := state
    cases x with
    | For a b => rfl
    | ParFor a b => rfl
    | Storage a b => rfl
    | Compute a b => simp [MappingNode.isCompute] at hx
    | Other => rfl

/-- The leaf id and the tiling specification a path ends with are those of
its last `Compute` node. -/
theorem tiling_visit_path (T : TilingCoefTrackerFns) (pre post : List MappingNode) (id : Nat)
    (spec : Option IslPwMultiAff) (h : ∀ node ∈ post, node.isCompute = false)
    (state : TilingCoefTracker × Option IslPwMultiAff × Nat) :
    ((pre ++ MappingNode.Compute id spec :: post).foldl (TilingFromMapping.visit T) state).2 =
      (spec, id) := by
  rw [List.foldl_append, List.foldl_cons, tiling_visit_no_compute T post h]
  obtain ⟨ct, s, l⟩ := pre.foldl (TilingFromMapping.visit T) state
  rfl

theorem tiling_path_preserves (T : TilingCoefTrackerFns) (leaf_id0 : Nat)
    (result : StdMap Nat IslMap) (path : List MappingNode) (k : Nat) (v : IslMap)
    (h : StdMap.at result k = some v) :
    StdMap.at (TilingFromMapping.path T leaf_id0 result path) k = some v := by
  unfold TilingFromMapping.path
  obtain ⟨ct, spec, leaf⟩ := path.foldl (TilingFromMapping.visit T) (T.init, none, leaf_id0)
  cases spec with
  | none => exact StdMap.at_emplace_of_some _ _ _ _ _ h
  | some s => exact StdMap.at_emplace_of_some _ _ _ _ _ h

theorem tiling_loop_preserves (T : TilingCoefTrackerFns) (uninit : Nat → Nat)
    (paths : List (List MappingNode)) (k : Nat) (v : IslMap) :
    ∀ (n : Nat) (result : StdMap Nat IslMap), StdMap.at result k = some v →
      StdMap.at (TilingFromMapping.loop T uninit n paths result) k = some v := by
  induction paths with
  | nil =>
    intro n result h
    exact h
  | cons p paths ih =>
    intro n result h
    exact ih (n + 1) _ (tiling_path_preserves T _ result p k v h)

theorem tiling_path_other_leaf (T : TilingCoefTrackerFns) (leaf_id0 : Nat)
    (result : StdMap Nat IslMap) (pre post : List MappingNode) (id0 id : Nat)
    (spec0 : Option IslPwMultiAff) (hpost : ∀ node ∈ post, node.isCompute = false)
    (hne : id0 ≠ id) :
    StdMap.at (TilingFromMapping.path T leaf_id0 result
      (pre ++ MappingNode.Compute id0 spec0 :: post)) id = StdMap.at result id := by
  have hv := tiling_visit_path T pre post id0 spec0 hpost (T.init, none, leaf_id0)
  unfold TilingFromMapping.path
  revert hv
  obtain ⟨ct, spec, leaf⟩ := (pre ++ MappingNode.Compute id0 spec0 :: post).foldl
    (TilingFromMapping.visit T) (T.init, none, leaf_id0)
  intro hv
  simp only [Prod.mk.injEq] at hv
  obtain ⟨h1, h2⟩ := hv
  subst h1
  subst h2
  cases spec with
  | none => exact StdMap.at_emplace_ne _ _ _ _ hne
  | some s => exact StdMap.at_emplace_ne _ _ _ _ hne

theorem tiling_path_explicit (T : TilingCoefTrackerFns) (leaf_id0 : Nat)
    (result : StdMap Nat IslMap) (pre post : List MappingNode) (id : Nat)
    (spec : IslPwMultiAff) (hpost : ∀ node ∈ post, node.isCompute = false)
    (hnone : StdMap.at result id = none) :
    StdMap.at (TilingFromMapping.path T leaf_id0 result
      (pre ++ MappingNode.Compute id (some spec) :: post)) id =
        some (map_from_multi_aff spec) := by
  have hv := tiling_visit_path T pre post id (some spec) hpost (T.init, none, leaf_id0)
  unfold TilingFromMapping.path
  revert hv
  obtain ⟨ct, spec1, leaf⟩ := (pre ++ MappingNode.Compute id (some spec) :: post).foldl
    (TilingFromMapping.visit T) (T.init, none, leaf_id0)
  intro hv
  simp only [Prod.mk.injEq] at hv
  obtain ⟨h1, h2⟩ := hv
  subst h1
  subst h2
  exact StdMap.at_emplace_self _ _ _ hnone

theorem tiling_loop_other_leaves (T : TilingCoefTrackerFns) (uninit : Nat → Nat) (id : Nat)
    (before : List (List MappingNode)) :
    (∀ p ∈ before, ∃ pre0 id0 spec0 post0,
        p = pre0 ++ MappingNode.Compute id0 spec0 :: post0 ∧
          (∀ node ∈ post0, node.isCompute = false) ∧ id0 ≠ id) →
      ∀ (n : Nat) (result : StdMap Nat IslMap) (rest : List (List MappingNode)),
        StdMap.at result id = none →
          ∃ result1, StdMap.at result1 id = none ∧
            TilingFromMapping.loop T uninit n (before ++ rest) result =
              TilingFromMapping.loop T uninit (n + before.length) rest result1 := by
  induction before with
  | nil =>
    intro _ n result rest h
    exact ⟨result, h, rfl⟩
  | cons p before ih =>
    intro hb n result rest h
    obtain ⟨pre0, id0, spec0, post0, rfl, hpost0, hne⟩ := hb p (List.mem_cons_self _ _)
    have h1 : StdMap.at (TilingFromMapping.path T (uninit n) result
        (pre0 ++ MappingNode.Compute id0 spec0 :: post0)) id = none := by
      rw [tiling_path_other_leaf T _ result pre0 post0 id0 id spec0 hpost0 hne]
      exact h
    obtain ⟨result1, h2, h3⟩ :=
      ih (fun q hq => hb q (List.mem_cons_of_mem _ hq)) (n + 1) _ rest h1
    refine ⟨result1, h2, ?_⟩
    rw [List.cons_append, TilingFromMapping.loop, h3, List.length_cons]
    congr 1
    omega

/-- Claim C10: a path whose last `Compute` node has id `id` and carries an
explicit tiling specification gets, in the result of `TilingFromMapping`,
the graph of that specification under `id`, whatever nodes (loops with any
`op_dim` and `end`) precede the leaf on the path; the earlier paths are
taken to end in `Compute` nodes with other ids, as the leaves of a tree do. -/
theorem explicit_tiling_precedence (T : TilingCoefTrackerFns) (uninit : Nat → Nat)
    (mapping : FusedMapping) (before after : List (List MappingNode))
    (pre post : List MappingNode) (id : Nat) (spec : IslPwMultiAff)
    (hpaths : GetPaths mapping =
      before ++ (pre ++ MappingNode.Compute id (some spec) :: post) :: after)
    (hpost : ∀ node ∈ post, node.isCompute = false)
    (hbefore : ∀ p ∈ before, ∃ pre0 id0 spec0 post0,
      p = pre0 ++ MappingNode.Compute id0 spec0 :: post0 ∧
        (∀ node ∈ post0, node.isCompute = false) ∧ id0 ≠ id) :
    StdMap.at (TilingFromMapping T uninit mapping) id = some (map_from_multi_aff spec) := by
  unfold TilingFromMapping
  rw [hpaths]
  obtain ⟨result1, h1, h2⟩ := tiling_loop_other_leaves T uninit id before hbefore 0 []
    ((pre ++ MappingNode.Compute id (some spec) :: post) :: after) rfl
  rw [h2, TilingFromMapping.loop]
  exact tiling_loop_preserves T uninit after id _ _ _
    (tiling_path_explicit T _ result1 pre post id spec hpost h1)

theorem explicit_tiling_precedence_witness :
    StdMap.at (TilingFromMapping exampleTracker (fun _ => 0) mapping_level1) 7 =
      some (map_from_multi_aff id2) :=
  explicit_tiling_precedence exampleTracker (fun _ => 0) mapping_level1 [] []
    [.For 0 none, .Storage 0 0, .For 1 none] [] 7 id2 rfl (by simp) (by simp)

/-! ## Logical buffer tilings and occupancies -/

theorem project_dim_in_after_spec (t : IslMap) (level : Nat) (hl : level ≤ t.n_in)
    (hn : t.n_in < 2 ^ 64) :
    ∃ proj, project_dim_in_after t level = some proj ∧ proj.n_in = level ∧
      proj.n_out = t.n_out ∧ ∀ x y, proj.rel x y ↔ ∃ x0, t.rel x0 y ∧ x = x0.take level := by
  have hc : (t.n_in + 2 ^ 64 - level % 2 ^ 64) % 2 ^ 64 = t.n_in - level := by omega
  have hp : level + (t.n_in - level) ≤ t.n_in := by omega
  simp only [project_dim_in_after, project_dim, isl_map_dim, hc, isl_map_project_out, dif_pos hp]
  refine ⟨_, rfl, by simp only; omega, rfl, ?_⟩
  intro x y
  simp only
  constructor
  · rintro ⟨x0, h0, rfl⟩
    refine ⟨x0, h0, ?_⟩
    have hx0 := (t.wf x0 y h0).1
    simp only [dropDims]
    rw [List.drop_of_length_le (by omega), List.append_nil]
  · rintro ⟨x0, h0, rfl⟩
    refine ⟨x0, h0, ?_⟩
    have hx0 := (t.wf x0 y h0).1
    simp only [dropDims]
    rw [List.drop_of_length_le (by omega), List.append_nil]

theorem bufTiling_loop_preserves (bt : StdMap Nat IslMap) (pairs : List (LogicalBuffer × Nat))
    (k : LogicalBuffer) (v : IslMap) :
    ∀ (result r : StdMap LogicalBuffer IslMap),
      LogicalBufTilingFromMapping.loop bt pairs result = some r →
        StdMap.at result k = some v → StdMap.at r k = some v := by
  induction pairs with
  | nil =>
    intro result r h hk
    simp only [LogicalBufTilingFromMapping.loop, Option.some.injEq] at h
    rw [← h]
    exact hk
  | cons e pairs ih =>
    intro result r h hk
    obtain ⟨buf, level⟩ := e
    simp only [LogicalBufTilingFromMapping.loop] at h
    cases ht : StdMap.at bt buf.branch_leaf_id with
    | none => simp [ht] at h
    | some tiling =>
      cases hp : ProjectDimInAfter tiling level with
      | none => simp [ht, hp] at h
      | some proj =>
        simp only [ht, hp] at h
        exact ih _ r h (StdMap.at_emplace_of_some _ _ _ _ _ hk)

/-- The first pair of a buffer decides its entry: the branch tiling of its
leaf with `ProjectDimInAfter` applied at its level. -/
theorem bufTiling_loop_first (bt : StdMap Nat IslMap) (buf : LogicalBuffer) (level : Nat)
    (post : List (LogicalBuffer × Nat)) (pre : List (LogicalBuffer × Nat)) :
    ∀ (result r : StdMap LogicalBuffer IslMap),
      LogicalBufTilingFromMapping.loop bt (pre ++ (buf, level) :: post) result = some r →
        (∀ e ∈ pre, e.1 ≠ buf) → StdMap.at result buf = none →
          ∃ tiling proj, StdMap.at bt buf.branch_leaf_id = some tiling ∧
            ProjectDimInAfter tiling level = some proj ∧ StdMap.at r buf = some proj := by
  induction pre with
  | nil =>
    intro result r h _ hnone
    simp only [List.nil_append, LogicalBufTilingFromMapping.loop] at h
    cases ht : StdMap.at bt buf.branch_leaf_id with
    | none => simp [ht] at h
    | some tiling =>
      cases hp : ProjectDimInAfter tiling level with
      | none => simp [ht, hp] at h
      | some proj =>
        simp only [ht, hp] at h
        exact ⟨tiling, proj, rfl, hp,
          bufTiling_loop_preserves bt post buf proj _ r h (StdMap.at_emplace_self _ _ _ hnone)⟩
  | cons e pre ih =>
    intro result r h hpre hnone
    obtain ⟨buf0, level0⟩ := e
    have hne : buf0 ≠ buf := hpre (buf0, level0) (List.mem_cons_self _ _)
    simp only [List.cons_append, LogicalBufTilingFromMapping.loop] at h
    cases ht : StdMap.at bt buf0.branch_leaf_id with
    | none => simp [ht] at h
    | some tiling0 =>
      cases hp : ProjectDimInAfter tiling0 level0 with
      | none => simp [ht, hp] at h
      | some proj0 =>
        simp only [ht, hp] at h
        refine ih _ r h (fun e he => hpre e (List.mem_cons_of_mem _ he)) ?_
        rw [StdMap.at_emplace_ne _ _ _ _ hne]
        exact hnone

theorem bufTiling_loop_total (bt : StdMap Nat IslMap) (pairs : List (LogicalBuffer × Nat)) :
    (∀ e ∈ pairs, ∃ t, StdMap.at bt e.1.branch_leaf_id = some t ∧ e.2 ≤ t.n_in ∧
        t.n_in < 2 ^ 64) →
      ∀ result, ∃ r, LogicalBufTilingFromMapping.loop bt pairs result = some r := by
  induction pairs with
  | nil =>
    intro _ result
    exact ⟨result, rfl⟩
  | cons e pairs ih =>
    intro h result
    obtain ⟨buf, level⟩ := e
    obtain ⟨t, ht, hl, hn⟩ := h (buf, level) (List.mem_cons_self _ _)
    obtain ⟨proj, hp, -⟩ := project_dim_in_after_spec t level hl hn
    obtain ⟨r, hr⟩ := ih (fun e he => h e (List.mem_cons_of_mem _ he)) (result.emplace buf proj)
    refine ⟨r, ?_⟩
    simp only [LogicalBufTilingFromMapping.loop, ht, ProjectDimInAfter, hp]
    exact hr

theorem logicalBufTiling_spec (T : TilingCoefTrackerFns) (uninit : Nat → Nat)
    (mapping : FusedMapping)
    (hall : ∀ e ∈ BufferIterLevelsFromMapping mapping, ∃ t,
      StdMap.at (TilingFromMapping T uninit mapping) e.1.branch_leaf_id = some t ∧
        e.2 ≤ t.n_in ∧ t.n_in < 2 ^ 64) :
    ∃ r, LogicalBufTilingFromMapping T uninit mapping = some r ∧
      ∀ buf level pre post,
        BufferIterLevelsFromMapping mapping = pre ++ (buf, level) :: post →
          (∀ e ∈ pre, e.1 ≠ buf) →
            ∃ tiling proj,
              StdMap.at (TilingFromMapping T uninit mapping) buf.branch_leaf_id = some tiling ∧
                StdMap.at r buf = some proj ∧ proj.n_in = level ∧ proj.n_out = tiling.n_out ∧
                  ∀ x y, proj.rel x y ↔ ∃ x0, tiling.rel x0 y ∧ x = x0.take level := by
  obtain ⟨r, hr⟩ := bufTiling_loop_total (TilingFromMapping T uninit mapping)
    (BufferIterLevelsFromMapping mapping) hall []
  refine ⟨r, hr, ?_⟩
  intro buf level pre post hpairs hpre
  rw [hpairs] at hr
  obtain ⟨tiling, proj, ht, hp, hat⟩ :=
    bufTiling_loop_first _ buf level post pre [] r hr hpre rfl
  obtain ⟨t1, ht1, hl, hn⟩ := hall (buf, level) (by rw [hpairs]; simp)
  rw [ht] at ht1
  cases ht1
  obtain ⟨proj1, hp1, h1, h2, h3⟩ := project_dim_in_after_spec tiling level hl hn
  have hpe : proj = proj1 := by
    have h4 : some proj = some proj1 := by rw [← hp, ← hp1]; rfl
    exact Option.some.inj h4
  subst hpe
  exact ⟨tiling, proj, ht, hat, h1, h2, h3⟩

theorem pairs_level1 :
    BufferIterLevelsFromMapping mapping_level1 = [(⟨0, 0, 7⟩, 1)] :=
  rfl

theorem tiling_level1 :
    TilingFromMapping exampleTracker (fun _ => 0) mapping_level1 =
      [(7, map_from_multi_aff id2)] :=
  rfl

theorem hall_level1 :
    ∀ e ∈ BufferIterLevelsFromMapping mapping_level1, ∃ t,
      StdMap.at (TilingFromMapping exampleTracker (fun _ => 0) mapping_level1)
          e.1.branch_leaf_id = some t ∧ e.2 ≤ t.n_in ∧ t.n_in < 2 ^ 64 := by
  intro e he
  rw [pairs_level1, List.mem_singleton] at he
  subst he
  refine ⟨map_from_multi_aff id2, by rw [tiling_level1]; rfl, ?_, ?_⟩
  · show 1 ≤ 2
    omega
  · show 2 < 2 ^ 64
    norm_num

/-- Claim C8, as the code has it: when every pair has its leaf in the branch
tiling table and a level within the input dimensions of that tiling,
`LogicalBufTilingFromMapping` returns a table in which each buffer, by its
first pair `(buffer, level)`, is mapped to the branch tiling relation of
`buffer.branch_leaf_id` with its input (domain) dimensions from index
`level` onward projected out: the `level` first input coordinates and all
output coordinates are kept. -/
theorem logical_buf_tiling_projects_inputs (T : TilingCoefTrackerFns) (uninit : Nat → Nat)
    (mapping : FusedMapping)
    (hall : ∀ e ∈ BufferIterLevelsFromMapping mapping, ∃ t,
      StdMap.at (TilingFromMapping T uninit mapping) e.1.branch_leaf_id = some t ∧
        e.2 ≤ t.n_in ∧ t.n_in < 2 ^ 64) :
    ∃ r, LogicalBufTilingFromMapping T uninit mapping = some r ∧
      ∀ buf level pre post,
        BufferIterLevelsFromMapping mapping = pre ++ (buf, level) :: post →
          (∀ e ∈ pre, e.1 ≠ buf) →
            ∃ tiling proj,
              StdMap.at (TilingFromMapping T uninit mapping) buf.branch_leaf_id = some tiling ∧
                StdMap.at r buf = some proj ∧ proj.n_in = level ∧ proj.n_out = tiling.n_out ∧
                  ∀ x y, proj.rel x y ↔ ∃ x0, tiling.rel x0 y ∧ x = x0.take level :=
  logicalBufTiling_spec T uninit mapping hall

theorem logical_buf_tiling_projects_inputs_witness :
    ∃ r, LogicalBufTilingFromMapping exampleTracker (fun _ => 0) mapping_level1 = some r ∧
      ∀ buf level pre post,
        BufferIterLevelsFromMapping mapping_level1 = pre ++ (buf, level) :: post →
          (∀ e ∈ pre, e.1 ≠ buf) →
            ∃ tiling proj,
              StdMap.at (TilingFromMapping exampleTracker (fun _ => 0) mapping_level1)
                  buf.branch_leaf_id = some tiling ∧
                StdMap.at r buf = some proj ∧ proj.n_in = level ∧ proj.n_out = tiling.n_out ∧
                  ∀ x y, proj.rel x y ↔ ∃ x0, tiling.rel x0 y ∧ x = x0.take level :=
  logical_buf_tiling_projects_inputs exampleTracker (fun _ => 0) mapping_level1 hall_level1

/-- Claim C8 fails on a buffer at level 1 under two loops, with the identity
on pairs as tiling of its leaf: the relation of the buffer has one input
dimension, where the tiling has two, and still has both output dimensions. -/
theorem logical_buf_tiling_keeps_outputs :
    ∃ r tiling proj,
      LogicalBufTilingFromMapping exampleTracker (fun _ => 0) mapping_level1 = some r ∧
        StdMap.at (TilingFromMapping exampleTracker (fun _ => 0) mapping_level1) 7 =
          some tiling ∧
        StdMap.at r ⟨0, 0, 7⟩ = some proj ∧
        tiling.n_in = 2 ∧ tiling.n_out = 2 ∧ proj.n_in = 1 ∧ proj.n_out = 2 := by
  obtain ⟨r, hr, hspec⟩ := logicalBufTiling_spec exampleTracker (fun _ => 0) mapping_level1
    hall_level1
  obtain ⟨tiling, proj, ht, hat, h1, h2, -⟩ :=
    hspec ⟨0, 0, 7⟩ 1 [] [] pairs_level1 (by simp)
  have hte : tiling = map_from_multi_aff id2 := by
    rw [tiling_level1] at ht
    exact (Option.some.inj ht).symm
  subst hte
  exact ⟨r, _, proj, hr, ht, hat, rfl, rfl, h1, h2⟩

/-! ## The occupancy of a buffer above a two-level nest -/

theorem ops_workload_i : OpsToDSpaceFromEinsum workload_i = some [(0, map_ij_to_i)] :=
  rfl

theorem map_ij_to_i_rel (x y : List Int) :
    map_ij_to_i.rel x y ↔ ∃ i j, x = [i, j] ∧ y = [i] := by
  simp only [map_ij_to_i, isl_map_from_multi_aff, List.map_cons, List.map_nil, IslAff.eval]
  constructor
  · rintro ⟨hx, rfl⟩
    match x, hx with
    | [i, j], _ => exact ⟨i, j, rfl, by simp [dot]⟩
  · rintro ⟨i, j, rfl, rfl⟩
    exact ⟨rfl, by simp [dot]⟩

theorem pairs_nest2 (buffer leaf op_i op_j : Nat) (end_i end_j : Option Nat)
    (spec : Option IslPwMultiAff) :
    BufferIterLevelsFromMapping (nest2 buffer leaf op_i op_j end_i end_j spec) =
      [(⟨buffer, 0, leaf⟩, 0)] :=
  rfl

theorem tiling_nest2 (T : TilingCoefTrackerFns) (uninit : Nat → Nat)
    (buffer leaf op_i op_j : Nat) (end_i end_j : Option Nat) (spec : Option IslPwMultiAff) :
    TilingFromMapping T uninit (nest2 buffer leaf op_i op_j end_i end_j spec) =
      [(leaf, leafTiling T op_i op_j end_i end_j spec)] := by
  cases spec <;> rfl

theorem bufTiling_loop_single (leaf : Nat) (tiling : IslMap) (buf : LogicalBuffer)
    (level : Nat) (proj : IslMap) (hl : buf.branch_leaf_id = leaf)
    (hp : project_dim_in_after tiling level = some proj) :
    LogicalBufTilingFromMapping.loop [(leaf, tiling)] [(buf, level)] [] =
      some [(buf, proj)] := by
  simp only [LogicalBufTilingFromMapping.loop, StdMap.at, hl, if_true, ProjectDimInAfter, hp,
    StdMap.emplace, List.nil_append]

theorem occupancies_loop_single (dspace : Nat) (ops : IslMap) (buf : LogicalBuffer)
    (tiling : IslMap) (hd : buf.dspace_id = dspace) (hc : tiling.n_out = ops.n_in) :
    ∃ occ, OccupanciesFromMapping.loop [(dspace, ops)] [(buf, tiling)] [] = some [(buf, occ)] ∧
      occ.n_in = tiling.n_in ∧ occ.n_out = ops.n_out ∧
      ∀ x a, occ.rel x a ↔ ∃ y, tiling.rel x y ∧ ops.rel y a := by
  simp only [OccupanciesFromMapping.loop, StdMap.at, hd, if_true, ApplyRange,
    isl_map_apply_range, if_pos hc, StdMap.emplace, List.nil_append]
  exact ⟨_, rfl, rfl, rfl, fun _ _ => Iff.rfl⟩

/-- The occupancy of the buffer stored above both loops of `nest2`: it has no
input dimension and relates the empty tuple to every address `i` of an
operation `(i, j)` in the range of the tiling of the leaf. -/
theorem occupancies_nest2 (T : TilingCoefTrackerFns) (uninit : Nat → Nat)
    (buffer leaf op_i op_j : Nat) (end_i end_j : Option Nat) (spec : Option IslPwMultiAff)
    (h2 : (leafTiling T op_i op_j end_i end_j spec).n_out = 2)
    (hb : (leafTiling T op_i op_j end_i end_j spec).n_in < 2 ^ 64) :
    ∃ occ, OccupanciesFromMapping T uninit
        (nest2 buffer leaf op_i op_j end_i end_j spec) workload_i =
          some [(⟨buffer, 0, leaf⟩, occ)] ∧
      occ.n_in = 0 ∧ occ.n_out = 1 ∧
      ∀ x a, occ.rel x a ↔
        x = [] ∧ ∃ x0 i j, (leafTiling T op_i op_j end_i end_j spec).rel x0 [i, j] ∧ a = [i] := by
  obtain ⟨proj, hp, hpi, hpo, hrel⟩ :=
    project_dim_in_after_spec (leafTiling T op_i op_j end_i end_j spec) 0 (Nat.zero_le _) hb
  have hc : proj.n_out = map_ij_to_i.n_in := hpo.trans h2
  have hlb : LogicalBufTilingFromMapping T uninit
      (nest2 buffer leaf op_i op_j end_i end_j spec) = some [(⟨buffer, 0, leaf⟩, proj)] := by
    simp only [LogicalBufTilingFromMapping, tiling_nest2, pairs_nest2]
    exact bufTiling_loop_single leaf _ _ 0 proj rfl hp
  obtain ⟨occ, hocc, hoi, hoo, horel⟩ :=
    occupancies_loop_single 0 map_ij_to_i ⟨buffer, 0, leaf⟩ proj rfl hc
  refine ⟨occ, ?_, hoi.trans hpi, hoo, ?_⟩
  · simp only [OccupanciesFromMapping, ops_workload_i, hlb]
    exact hocc
  · intro x a
    rw [horel]
    constructor
    · rintro ⟨y, hy, ha⟩
      obtain ⟨x0, hx0, rfl⟩ := (hrel x y).1 hy
      obtain ⟨i, j, rfl, rfl⟩ := (map_ij_to_i_rel y a).1 ha
      exact ⟨by simp, x0, i, j, hx0, rfl⟩
    · rintro ⟨rfl, x0, i, j, hx0, rfl⟩
      exact ⟨[i, j], (hrel [] [i, j]).2 ⟨x0, hx0, by simp⟩,
        (map_ij_to_i_rel [i, j] [i]).2 ⟨i, j, rfl, rfl⟩⟩

theorem leafTiling_id2 (T : TilingCoefTrackerFns) (op_i op_j : Nat) (end_i end_j : Option Nat)
    (x y : List Int) :
    (leafTiling T op_i op_j end_i end_j (some id2)).rel x y ↔ x.length = 2 ∧ y = x := by
  simp only [leafTiling, map_from_multi_aff, isl_map_from_pw_multi_aff, id2]
  constructor
  · intro h
    by_cases hx : x.length = 2
    · simp only [if_pos hx, Option.some.injEq] at h
      exact ⟨hx, h.symm⟩
    · simp only [if_neg hx] at h
      cases h
  · rintro ⟨hx, rfl⟩
    simp only [if_pos hx]

/-- Claim C7, as the code has it: for the two-level nest with the storage
node before both loops and the data-space of address `i`, when the tiling of
the leaf has two output dimensions, `OccupanciesFromMapping` returns for the
buffer a relation with no input dimension and one output dimension: it
relates the empty iteration tuple to every address `i` such that an
operation `(i, j)` is in the range of the tiling of the leaf. -/
theorem level0_occupancy_has_no_input_dim (T : TilingCoefTrackerFns) (uninit : Nat → Nat)
    (buffer leaf op_i op_j : Nat) (end_i end_j : Option Nat) (spec : Option IslPwMultiAff)
    (h2 : (leafTiling T op_i op_j end_i end_j spec).n_out = 2)
    (hb : (leafTiling T op_i op_j end_i end_j spec).n_in < 2 ^ 64) :
    ∃ occ, OccupanciesFromMapping T uninit
        (nest2 buffer leaf op_i op_j end_i end_j spec) workload_i =
          some [(⟨buffer, 0, leaf⟩, occ)] ∧
      occ.n_in = 0 ∧ occ.n_out = 1 ∧
      ∀ x a, occ.rel x a ↔
        x = [] ∧ ∃ x0 i j, (leafTiling T op_i op_j end_i end_j spec).rel x0 [i, j] ∧ a = [i] :=
  occupancies_nest2 T uninit buffer leaf op_i op_j end_i end_j spec h2 hb

theorem level0_occupancy_has_no_input_dim_witness :
    ∃ occ, OccupanciesFromMapping exampleTracker (fun _ => 0)
        (nest2 0 7 0 1 none none (some id2)) workload_i = some [(⟨0, 0, 7⟩, occ)] ∧
      occ.n_in = 0 ∧ occ.n_out = 1 ∧
      ∀ x a, occ.rel x a ↔
        x = [] ∧ ∃ x0 i j,
          (leafTiling exampleTracker 0 1 none none (some id2)).rel x0 [i, j] ∧ a = [i] :=
  level0_occupancy_has_no_input_dim exampleTracker (fun _ => 0) 0 7 0 1 none none (some id2)
    rfl (by show 2 < 2 ^ 64; norm_num)

/-- Claim C7 fails on the two-level nest whose leaf has the identity on pairs
as tiling: the relation returned for the buffer has no input dimension, it
holds of the empty tuple and the address 3, and it does not hold of the
iteration `(3, 4)` and the address 3, a pair of `{(i, j) -> i}`. -/
theorem level0_occupancy_is_not_ij_to_i :
    ∃ occ, OccupanciesFromMapping exampleTracker (fun _ => 0)
        (nest2 0 7 0 1 none none (some id2)) workload_i = some [(⟨0, 0, 7⟩, occ)] ∧
      occ.n_in = 0 ∧ occ.rel [] [3] ∧ ¬ occ.rel [3, 4] [3] ∧ map_ij_to_i.rel [3, 4] [3] ∧
      occ ≠ map_ij_to_i := by
  obtain ⟨occ, hocc, hi, -, hrel⟩ := occupancies_nest2 exampleTracker (fun _ => 0) 0 7 0 1
    none none (some id2) rfl (by show 2 < 2 ^ 64; norm_num)
  have h34 : map_ij_to_i.rel [3, 4] [3] := (map_ij_to_i_rel _ _).2 ⟨3, 4, rfl, rfl⟩
  have hn : ¬ occ.rel [3, 4] [3] := by
    rw [hrel]
    rintro ⟨h, -⟩
    cases h
  refine ⟨occ, hocc, hi, ?_, hn, h34, ?_⟩
  · rw [hrel]
    exact ⟨rfl, [3, 0], 3, 0, (leafTiling_id2 _ _ _ _ _ _ _).2 ⟨rfl, rfl⟩, rfl⟩
  · intro he
    rw [he] at hn
    exact hn h34

/-! ## Paths and their `Compute` nodes -/

theorem StdMap.at_emplace_isSome {K V : Type} [DecidableEq K] (m : StdMap K V) (k : K)
    (v : V) : ∃ w, StdMap.at (m.emplace k v) k = some w := by
  cases h : StdMap.at m k with
  | none => exact ⟨v, StdMap.at_emplace_self m k v h⟩
  | some w => exact ⟨w, StdMap.at_emplace_of_some m k v k w h⟩

theorem tiling_path_has_entry (T : TilingCoefTrackerFns) (leaf_id0 : Nat)
    (result : StdMap Nat IslMap) (pre post : List MappingNode) (id : Nat)
    (spec : Option IslPwMultiAff) (hpost : ∀ node ∈ post, node.isCompute = false) :
    ∃ v, StdMap.at (TilingFromMapping.path T leaf_id0 result
      (pre ++ MappingNode.Compute id spec :: post)) id = some v := by
  have hv := tiling_visit_path T pre post id spec hpost (T.init, none, leaf_id0)
  unfold TilingFromMapping.path
  revert hv
  obtain ⟨ct, spec1, leaf⟩ := (pre ++ MappingNode.Compute id spec :: post).foldl
    (TilingFromMapping.visit T) (T.init, none, leaf_id0)
  intro hv
  simp only [Prod.mk.injEq] at hv
  obtain ⟨h1, h2⟩ := hv
  subst h1
  subst h2
  cases spec1 with
  | none => exact StdMap.at_emplace_isSome _ _ _
  | some s => exact StdMap.at_emplace_isSome _ _ _

theorem tiling_loop_has_entry (T : TilingCoefTrackerFns) (uninit : Nat → Nat)
    (pre post : List MappingNode) (id : Nat) (spec : Option IslPwMultiAff)
    (hpost : ∀ node ∈ post, node.isCompute = false) (paths : List (List MappingNode)) :
    pre ++ MappingNode.Compute id spec :: post ∈ paths →
      ∀ (n : Nat) (result : StdMap Nat IslMap),
        ∃ v, StdMap.at (TilingFromMapping.loop T uninit n paths result) id = some v := by
  induction paths with
  | nil =>
    intro h
    simp at h
  | cons p paths ih =>
    intro h n result
    rcases List.mem_cons.1 h with h1 | h1
    · obtain ⟨v, hv⟩ := tiling_path_has_entry T (uninit n) result pre post id spec hpost
      rw [← h1]
      exact ⟨v, tiling_loop_preserves T uninit paths id v (n + 1) _ hv⟩
    · exact ih h1 (n + 1) _

/-- A path with a `Compute` node has a last `Compute` node. -/
theorem exists_last_compute (path : List MappingNode) :
    (∃ node ∈ path, node.isCompute = true) →
      ∃ pre id spec post, path = pre ++ MappingNode.Compute id spec :: post ∧
        ∀ node ∈ post, node.isCompute = false := by
  induction path with
  | nil =>
    rintro ⟨node, h, -⟩
    simp at h
  | cons x path ih =>
    intro h
    by_cases hp : ∃ node ∈ path, node.isCompute = true
    · obtain ⟨pre, id, spec, post, h1, h2⟩ := ih hp
      exact ⟨x :: pre, id, spec, post, by rw [h1]; rfl, h2⟩
    · obtain ⟨node, hmem, hc⟩ := h
      rcases List.mem_cons.1 hmem with h1 | h1
      · subst h1
        cases node with
        | Compute id spec =>
          refine ⟨[], id, spec, path, rfl, ?_⟩
          intro n hn
          cases hb : n.isCompute with
          | false => rfl
          | true => exact absurd ⟨n, hn, hb⟩ hp
        | For u v => simp [MappingNode.isCompute] at hc
        | ParFor u v => simp [MappingNode.isCompute] at hc
        | Storage u v => simp [MappingNode.isCompute] at hc
        | Other => simp [MappingNode.isCompute] at hc
      · exact absurd ⟨node, h1, hc⟩ hp

/-- On a path with a `Compute` node the visitor assigns `leaf_id`: the state
the path ends with does not depend on the value `leaf_id` started with. -/
theorem tiling_visit_uninit (T : TilingCoefTrackerFns) (path : List MappingNode) :
    (∃ node ∈ path, node.isCompute = true) →
      ∀ (ct : TilingCoefTracker) (s : Option IslPwMultiAff) (a b : Nat),
        path.foldl (TilingFromMapping.visit T) (ct, s, a) =
          path.foldl (TilingFromMapping.visit T) (ct, s, b) := by
  induction path with
  | nil =>
    rintro ⟨node, h, -⟩
    simp at h
  | cons x path ih =>
    intro h ct s a b
    cases hx : x.isCompute with
    | true =>
      cases x with
      | Compute u v => rfl
      | For u v => simp [MappingNode.isCompute] at hx
      | ParFor u v => simp [MappingNode.isCompute] at hx
      | Storage u v => simp [MappingNode.isCompute] at hx
      | Other => simp [MappingNode.isCompute] at hx
    | false =>
      have hrest : ∃ node ∈ path, node.isCompute = true := by
        obtain ⟨node, hmem, hc⟩ := h
        rcases List.mem_cons.1 hmem with h1 | h1
        · rw [h1, hx] at hc
          cases hc
        · exact ⟨node, h1, hc⟩
      cases x with
      | For u v => exact ih hrest _ _ _ _
      | ParFor u v => exact ih hrest _ _ _ _
      | Storage u v => exact ih hrest _ _ _ _
      | Other => exact ih hrest _ _ _ _
      | Compute u v => simp [MappingNode.isCompute] at hx

theorem tiling_loop_uninit (T : TilingCoefTrackerFns) (u1 u2 : Nat → Nat)
    (paths : List (List MappingNode)) :
    (∀ path ∈ paths, ∃ node ∈ path, node.isCompute = true) →
      ∀ (n : Nat) (result : StdMap Nat IslMap),
        TilingFromMapping.loop T u1 n paths result =
          TilingFromMapping.loop T u2 n paths result := by
  induction paths with
  | nil =>
    intro _ n result
    rfl
  | cons p paths ih =>
    intro h n result
    have hp : TilingFromMapping.path T (u1 n) result p =
        TilingFromMapping.path T (u2 n) result p := by
      unfold TilingFromMapping.path
      rw [tiling_visit_uninit T p (h p (List.mem_cons_self _ _)) T.init none (u1 n) (u2 n)]
    simp only [TilingFromMapping.loop, hp]
    exact ih (fun q hq => h q (List.mem_cons_of_mem _ hq)) (n + 1) _

/-- Claim C11, as the code has it: on a mapping whose every path holds a
`Compute` node, the branch tiling of `TilingFromMapping` does not depend on
the value the unassigned `leaf_id` starts with, and every path, with one
`Compute` node or with several, has an entry in it under the id of its last
`Compute` node. -/
theorem tiling_has_entry_for_last_compute (T : TilingCoefTrackerFns) (uninit : Nat → Nat)
    (mapping : FusedMapping)
    (hall : ∀ path ∈ GetPaths mapping, ∃ node ∈ path, node.isCompute = true) :
    (∀ uninit1, TilingFromMapping T uninit1 mapping = TilingFromMapping T uninit mapping) ∧
      ∀ path ∈ GetPaths mapping, ∃ pre id spec post,
        path = pre ++ MappingNode.Compute id spec :: post ∧
          (∀ node ∈ post, node.isCompute = false) ∧
          ∃ v, StdMap.at (TilingFromMapping T uninit mapping) id = some v := by
  refine ⟨fun uninit1 => tiling_loop_uninit T uninit1 uninit _ hall 0 [], ?_⟩
  intro path hpath
  obtain ⟨pre, id, spec, post, h1, h2⟩ := exists_last_compute path (hall path hpath)
  rw [h1] at hpath
  exact ⟨pre, id, spec, post, h1, h2,
    tiling_loop_has_entry T uninit pre post id spec h2 (GetPaths mapping) hpath 0 []⟩

theorem tiling_has_entry_for_last_compute_witness :
    (∀ path ∈ GetPaths mapping_two_computes, ∃ node ∈ path, node.isCompute = true) ∧
      (∀ uninit1, TilingFromMapping exampleTracker uninit1 mapping_two_computes =
        TilingFromMapping exampleTracker (fun _ => 0) mapping_two_computes) ∧
      ∀ path ∈ GetPaths mapping_two_computes, ∃ pre id spec post,
        path = pre ++ MappingNode.Compute id spec :: post ∧
          (∀ node ∈ post, node.isCompute = false) ∧
          ∃ v, StdMap.at
            (TilingFromMapping exampleTracker (fun _ => 0) mapping_two_computes) id = some v :=
  ⟨by simp [GetPaths, mapping_two_computes, MappingNode.isCompute],
    tiling_has_entry_for_last_compute exampleTracker (fun _ => 0) mapping_two_computes
      (by simp [GetPaths, mapping_two_computes, MappingNode.isCompute])⟩

/-- Claim C11 fails on a path with two `Compute` nodes: `TilingFromMapping`
returns a branch tiling, with the explicit tiling of the last `Compute` node
under its id. -/
theorem tiling_of_two_computes_is_returned :
    TilingFromMapping exampleTracker (fun _ => 0) mapping_two_computes =
      [(2, map_from_multi_aff id2)] :=
  rfl

/-! ## Address relations of the data-spaces -/

/-- Claim C12 on a coordinate with two terms: the second term meets an `aff`
that `SetAff` has taken the expression out of, and no relation is built. -/
theorem ops_to_dspace_two_terms_fails :
    OpsToDSpaceFromEinsum workload_two_terms = none :=
  rfl

/-! ## Failure and success of `OccupanciesFromMapping` -/

theorem StdMap.mem_of_at {K V : Type} [DecidableEq K] (m : StdMap K V) (k : K) (v : V) :
    StdMap.at m k = some v → (k, v) ∈ m := by
  induction m with
  | nil =>
    intro h
    simp [StdMap.at] at h
  | cons e m ih =>
    obtain ⟨k0, v0⟩ := e
    intro h
    by_cases hk : k0 = k
    · simp only [StdMap.at, if_pos hk, Option.some.injEq] at h
      rw [hk, h]
      exact List.mem_cons_self _ _
    · simp only [StdMap.at, if_neg hk] at h
      exact List.mem_cons_of_mem _ (ih h)

theorem StdMap.mem_emplace {K V : Type} [DecidableEq K] (m : StdMap K V) (k : K) (v : V)
    (e : K × V) (h : e ∈ m.emplace k v) : e ∈ m ∨ e = (k, v) := by
  unfold StdMap.emplace at h
  cases hk : StdMap.at m k with
  | some w =>
    rw [hk] at h
    exact Or.inl h
  | none =>
    rw [hk] at h
    simp only [List.mem_append, List.mem_singleton] at h
    exact h

theorem projectDimInAfter_n_out (t : IslMap) (level : Nat) (proj : IslMap)
    (h : ProjectDimInAfter t level = some proj) : proj.n_out = t.n_out := by
  simp only [ProjectDimInAfter, project_dim_in_after, project_dim, isl_map_dim,
    isl_map_project_out] at h
  split at h
  · simp only [Option.some.injEq] at h
    rw [← h]
  · cases h

theorem bufTiling_loop_none_of_missing (bt : StdMap Nat IslMap)
    (pairs : List (LogicalBuffer × Nat)) :
    (∃ e ∈ pairs, StdMap.at bt e.1.branch_leaf_id = none) →
      ∀ result, LogicalBufTilingFromMapping.loop bt pairs result = none := by
  induction pairs with
  | nil =>
    rintro ⟨e, he, -⟩
    simp at he
  | cons e0 pairs ih =>
    rintro ⟨e, he, hnone⟩ result
    obtain ⟨buf, level⟩ := e0
    cases ht : StdMap.at bt buf.branch_leaf_id with
    | none => simp only [LogicalBufTilingFromMapping.loop, ht]
    | some tiling =>
      cases hp : ProjectDimInAfter tiling level with
      | none => simp only [LogicalBufTilingFromMapping.loop, ht, hp]
      | some proj =>
        simp only [LogicalBufTilingFromMapping.loop, ht, hp]
        rcases List.mem_cons.1 he with h1 | h1
        · rw [h1] at hnone
          rw [ht] at hnone
          cases hnone
        · exact ih ⟨e, h1, hnone⟩ _

theorem bufTiling_loop_keys (bt : StdMap Nat IslMap) (pairs : List (LogicalBuffer × Nat)) :
    ∀ (result r : StdMap LogicalBuffer IslMap),
      LogicalBufTilingFromMapping.loop bt pairs result = some r →
        ∀ e ∈ pairs, ∃ v, StdMap.at r e.1 = some v := by
  induction pairs with
  | nil =>
    intro result r _ e he
    simp at he
  | cons e0 pairs ih =>
    intro result r h e he
    obtain ⟨buf, level⟩ := e0
    simp only [LogicalBufTilingFromMapping.loop] at h
    cases ht : StdMap.at bt buf.branch_leaf_id with
    | none => simp [ht] at h
    | some tiling =>
      cases hp : ProjectDimInAfter tiling level with
      | none => simp [ht, hp] at h
      | some proj =>
        simp only [ht, hp] at h
        rcases List.mem_cons.1 he with h1 | h1
        · obtain ⟨w, hw⟩ := StdMap.at_emplace_isSome result buf proj
          rw [h1]
          exact ⟨w, bufTiling_loop_preserves bt pairs buf w _ r h hw⟩
        · exact ih _ r h e h1

/-- Every entry of the table of `LogicalBufTilingFromMapping` comes from a
pair: it holds the tiling of the leaf of the pair after `ProjectDimInAfter`. -/
theorem bufTiling_loop_entries (bt : StdMap Nat IslMap) (pairs : List (LogicalBuffer × Nat)) :
    ∀ (result r : StdMap LogicalBuffer IslMap),
      LogicalBufTilingFromMapping.loop bt pairs result = some r →
        ∀ entry ∈ r, entry ∈ result ∨
          ∃ level tiling, (entry.1, level) ∈ pairs ∧
            StdMap.at bt entry.1.branch_leaf_id = some tiling ∧
              ProjectDimInAfter tiling level = some entry.2 := by
  induction pairs with
  | nil =>
    intro result r h entry he
    simp only [LogicalBufTilingFromMapping.loop, Option.some.injEq] at h
    rw [← h] at he
    exact Or.inl he
  | cons e0 pairs ih =>
    intro result r h entry he
    obtain ⟨buf, level⟩ := e0
    simp only [LogicalBufTilingFromMapping.loop] at h
    cases ht : StdMap.at bt buf.branch_leaf_id with
    | none => simp [ht] at h
    | some tiling =>
      cases hp : ProjectDimInAfter tiling level with
      | none => simp [ht, hp] at h
      | some proj =>
        simp only [ht, hp] at h
        rcases ih _ r h entry he with h1 | ⟨level1, tiling1, h1, h2, h3⟩
        · rcases StdMap.mem_emplace result buf proj entry h1 with h2 | h2
          · exact Or.inl h2
          · refine Or.inr ⟨level, tiling, ?_, ?_, ?_⟩
            · rw [h2]
              exact List.mem_cons_self _ _
            · rw [h2]
              exact ht
            · rw [h2]
              exact hp
        · exact Or.inr ⟨level1, tiling1, List.mem_cons_of_mem _ h1, h2, h3⟩

theorem occupancies_loop_preserves (ops : StdMap Nat IslMap)
    (entries : List (LogicalBuffer × IslMap)) (k : LogicalBuffer) (v : IslMap) :
    ∀ (result r : StdMap LogicalBuffer IslMap),
      OccupanciesFromMapping.loop ops entries result = some r →
        StdMap.at result k = some v → StdMap.at r k = some v := by
  induction entries with
  | nil =>
    intro result r h hk
    simp only [OccupanciesFromMapping.loop, Option.some.injEq] at h
    rw [← h]
    exact hk
  | cons e entries ih =>
    intro result r h hk
    obtain ⟨buf, tiling⟩ := e
    simp only [OccupanciesFromMapping.loop] at h
    cases ho : StdMap.at ops buf.dspace_id with
    | none => simp [ho] at h
    | some o =>
      cases ha : ApplyRange tiling o with
      | none => simp [ho, ha] at h
      | some occ =>
        simp only [ho, ha] at h
        exact ih _ r h (StdMap.at_emplace_of_some _ _ _ _ _ hk)

theorem occupancies_loop_none_of_missing (ops : StdMap Nat IslMap)
    (entries : List (LogicalBuffer × IslMap)) :
    (∃ e ∈ entries, StdMap.at ops e.1.dspace_id = none) →
      ∀ result, OccupanciesFromMapping.loop ops entries result = none := by
  induction entries with
  | nil =>
    rintro ⟨e, he, -⟩
    simp at he
  | cons e0 entries ih =>
    rintro ⟨e, he, hnone⟩ result
    obtain ⟨buf, tiling⟩ := e0
    cases ho : StdMap.at ops buf.dspace_id with
    | none => simp only [OccupanciesFromMapping.loop, ho]
    | some o =>
      cases ha : ApplyRange tiling o with
      | none => simp only [OccupanciesFromMapping.loop, ho, ha]
      | some occ =>
        simp only [OccupanciesFromMapping.loop, ho, ha]
        rcases List.mem_cons.1 he with h1 | h1
        · rw [h1] at hnone
          rw [ho] at hnone
          cases hnone
        · exact ih ⟨e, h1, hnone⟩ _

theorem occupancies_loop_total (ops : StdMap Nat IslMap)
    (entries : List (LogicalBuffer × IslMap)) :
    (∀ e ∈ entries, ∃ o, StdMap.at ops e.1.dspace_id = some o ∧ e.2.n_out = o.n_in) →
      ∀ result, ∃ r, OccupanciesFromMapping.loop ops entries result = some r ∧
        ∀ e ∈ entries, ∃ occ, StdMap.at r e.1 = some occ := by
  induction entries with
  | nil =>
    intro _ result
    exact ⟨result, rfl, by simp⟩
  | cons e0 entries ih =>
    intro h result
    obtain ⟨buf, tiling⟩ := e0
    obtain ⟨o, ho, hn⟩ := h (buf, tiling) (List.mem_cons_self _ _)
    have hn1 : tiling.n_out = o.n_in := hn
    obtain ⟨r, hr, hkeys⟩ := ih (fun e he => h e (List.mem_cons_of_mem _ he))
      (result.emplace buf ⟨tiling.n_in, o.n_out, tiling.in_name,
        fun x z => ∃ y, tiling.rel x y ∧ o.rel y z,
        fun x z ⟨y, h1, h2⟩ => ⟨(tiling.wf x y h1).1, (o.wf y z h2).2⟩⟩)
    refine ⟨r, ?_, ?_⟩
    · simp only [OccupanciesFromMapping.loop, ho, ApplyRange, isl_map_apply_range, if_pos hn1]
      exact hr
    · intro e he
      rcases List.mem_cons.1 he with h1 | h1
      · obtain ⟨w, hw⟩ := StdMap.at_emplace_isSome result buf
          ⟨tiling.n_in, o.n_out, tiling.in_name, fun x z => ∃ y, tiling.rel x y ∧ o.rel y z,
            fun x z ⟨y, h1, h2⟩ => ⟨(tiling.wf x y h1).1, (o.wf y z h2).2⟩⟩
        rw [h1]
        exact ⟨w, occupancies_loop_preserves ops entries buf w _ r hr hw⟩
      · exact hkeys e h1

theorem occupancies_none_of_missing_leaf (T : TilingCoefTrackerFns) (uninit : Nat → Nat)
    (mapping : FusedMapping) (workload : Workload)
    (h : ∃ e ∈ BufferIterLevelsFromMapping mapping,
      StdMap.at (TilingFromMapping T uninit mapping) e.1.branch_leaf_id = none) :
    OccupanciesFromMapping T uninit mapping workload = none := by
  have hlb : LogicalBufTilingFromMapping T uninit mapping = none :=
    bufTiling_loop_none_of_missing _ _ h []
  unfold OccupanciesFromMapping
  cases OpsToDSpaceFromEinsum workload with
  | none => rfl
  | some ops => simp only [hlb]

theorem occupancies_none_of_missing_dspace (T : TilingCoefTrackerFns) (uninit : Nat → Nat)
    (mapping : FusedMapping) (workload : Workload) (ops : StdMap Nat IslMap)
    (hops : OpsToDSpaceFromEinsum workload = some ops)
    (h : ∃ e ∈ BufferIterLevelsFromMapping mapping, StdMap.at ops e.1.dspace_id = none) :
    OccupanciesFromMapping T uninit mapping workload = none := by
  unfold OccupanciesFromMapping
  simp only [hops]
  cases hlb : LogicalBufTilingFromMapping T uninit mapping with
  | none => rfl
  | some r =>
    simp only
    obtain ⟨e, he, hnone⟩ := h
    obtain ⟨v, hv⟩ := bufTiling_loop_keys _ _ [] r hlb e he
    exact occupancies_loop_none_of_missing ops r
      ⟨(e.1, v), StdMap.mem_of_at r e.1 v hv, hnone⟩ []

theorem occupancies_some_of_consistent (T : TilingCoefTrackerFns) (uninit : Nat → Nat)
    (mapping : FusedMapping) (workload : Workload) (ops : StdMap Nat IslMap)
    (hops : OpsToDSpaceFromEinsum workload = some ops)
    (h : ∀ e ∈ BufferIterLevelsFromMapping mapping, ∃ t o,
      StdMap.at (TilingFromMapping T uninit mapping) e.1.branch_leaf_id = some t ∧
        e.2 ≤ t.n_in ∧ t.n_in < 2 ^ 64 ∧
        StdMap.at ops e.1.dspace_id = some o ∧ t.n_out = o.n_in) :
    ∃ r, OccupanciesFromMapping T uninit mapping workload = some r ∧
      ∀ e ∈ BufferIterLevelsFromMapping mapping, ∃ occ, StdMap.at r e.1 = some occ := by
  have hall : ∀ e ∈ BufferIterLevelsFromMapping mapping, ∃ t,
      StdMap.at (TilingFromMapping T uninit mapping) e.1.branch_leaf_id = some t ∧
        e.2 ≤ t.n_in ∧ t.n_in < 2 ^ 64 := by
    intro e he
    obtain ⟨t, o, h1, h2, h3, -, -⟩ := h e he
    exact ⟨t, h1, h2, h3⟩
  obtain ⟨bufs, hbufs⟩ := bufTiling_loop_total _ _ hall []
  have hlb : LogicalBufTilingFromMapping T uninit mapping = some bufs := hbufs
  have hent : ∀ entry ∈ bufs, ∃ o, StdMap.at ops entry.1.dspace_id = some o ∧
      entry.2.n_out = o.n_in := by
    intro entry hmem
    rcases bufTiling_loop_entries _ _ [] bufs hbufs entry hmem with h1 | ⟨level, tiling, h1, h2, h3⟩
    · simp at h1
    · obtain ⟨t, o, h4, -, -, h5, h6⟩ := h (entry.1, level) h1
      rw [h2] at h4
      cases h4
      exact ⟨o, h5, (projectDimInAfter_n_out tiling level entry.2 h3).trans h6⟩
  obtain ⟨r, hr, hkeys⟩ := occupancies_loop_total ops bufs hent []
  refine ⟨r, ?_, ?_⟩
  · unfold OccupanciesFromMapping
    simp only [hops, hlb]
    exact hr
  · intro e he
    obtain ⟨v, hv⟩ := bufTiling_loop_keys _ _ [] bufs hbufs e he
    exact hkeys (e.1, v) (StdMap.mem_of_at bufs e.1 v hv)

/-- Claim C13, as the code has it: `OccupanciesFromMapping` fails, with no
occupancy at all, when the leaf of some logical buffer has no entry in the
branch tiling table, and when the address table is built and the data-space
of some logical buffer has no entry in it.  When the address table is built
and every logical buffer has both entries, a level within the input
dimensions of its tiling, and a tiling whose output dimensions are the input
dimensions of its address relation, it returns an occupancy for every
logical buffer of the mapping. -/
theorem occupancies_fail_or_cover (T : TilingCoefTrackerFns) (uninit : Nat → Nat)
    (mapping : FusedMapping) (workload : Workload) :
    ((∃ e ∈ BufferIterLevelsFromMapping mapping,
        StdMap.at (TilingFromMapping T uninit mapping) e.1.branch_leaf_id = none) →
      OccupanciesFromMapping T uninit mapping workload = none) ∧
    (∀ ops, OpsToDSpaceFromEinsum workload = some ops →
      (∃ e ∈ BufferIterLevelsFromMapping mapping, StdMap.at ops e.1.dspace_id = none) →
        OccupanciesFromMapping T uninit mapping workload = none) ∧
    (∀ ops, OpsToDSpaceFromEinsum workload = some ops →
      (∀ e ∈ BufferIterLevelsFromMapping mapping, ∃ t o,
        StdMap.at (TilingFromMapping T uninit mapping) e.1.branch_leaf_id = some t ∧
          e.2 ≤ t.n_in ∧ t.n_in < 2 ^ 64 ∧
          StdMap.at ops e.1.dspace_id = some o ∧ t.n_out = o.n_in) →
        ∃ r, OccupanciesFromMapping T uninit mapping workload = some r ∧
          ∀ e ∈ BufferIterLevelsFromMapping mapping, ∃ occ, StdMap.at r e.1 = some occ) :=
  ⟨occupancies_none_of_missing_leaf T uninit mapping workload,
    occupancies_none_of_missing_dspace T uninit mapping workload,
    occupancies_some_of_consistent T uninit mapping workload⟩

theorem occupancies_fail_or_cover_witness :
    ∃ r, OccupanciesFromMapping exampleTracker (fun _ => 0)
        (nest2 0 7 0 1 none none (some id2)) workload_i = some r ∧
      ∀ e ∈ BufferIterLevelsFromMapping (nest2 0 7 0 1 none none (some id2)),
        ∃ occ, StdMap.at r e.1 = some occ :=
  (occupancies_fail_or_cover exampleTracker (fun _ => 0)
    (nest2 0 7 0 1 none none (some id2)) workload_i).2.2 [(0, map_ij_to_i)] ops_workload_i
    (by
      intro e he
      rw [pairs_nest2, List.mem_singleton] at he
      subst he
      refine ⟨leafTiling exampleTracker 0 1 none none (some id2), map_ij_to_i, ?_, ?_, ?_,
        rfl, rfl⟩
      · rw [tiling_nest2]
        rfl
      · exact Nat.zero_le _
      · show 2 < 2 ^ 64
        norm_num)

/-- Claim C13 fails on a mapping with no storage node and a workload whose
data-space has no entry in `DataSpaceOrder`: there is no logical buffer, and
`OccupanciesFromMapping` fails all the same, at the lookup of line 259. -/
theorem occupancies_fail_without_buffers :
    BufferIterLevelsFromMapping mapping_no_storage = [] ∧
      OccupanciesFromMapping exampleTracker (fun _ => 0) mapping_no_storage
        workload_no_order = none :=
  ⟨rfl, rfl⟩

/-! ## What the loop of `FillFromOccupancy` eliminates -/

/-- On a relation with an unnamed input tuple, a check that succeeds with a
projection was made on a dimension of the relation on which the relation does
not depend. -/
theorem trivialCheck_true (E : IslEquality) (p proj : IslMap) (d : Nat)
    (hname : p.in_name = none) (h : trivialCheck E (some p) d = (some proj, true)) :
    d < p.n_in ∧ TrivialDim p d ∧ proj.in_name = none ∧
      ∀ x y, proj.rel x y ↔ ∃ x0, p.rel x0 y ∧ x = dropDims x0 d 1 := by
  have hd : d < p.n_in := by
    by_contra hn
    rw [trivialCheck_of_not_lt E p d hn] at h
    cases h
  obtain ⟨proj1, b, -, hc, hb, -, -, -, h0, hr⟩ := trivialCheck_of_lt E p d hd
  rw [h] at hc
  simp only [Prod.mk.injEq, Option.some.injEq] at hc
  obtain ⟨h1, h2⟩ := hc
  subst h1
  subst h2
  exact ⟨hd, (hb hname).1 rfl, h0, hr⟩

/-- A check that fails was made on a dimension of a relation with an unnamed
input tuple, and the relation depends on that dimension. -/
theorem trivialCheck_false (E : IslEquality) (p : IslMap) (q : Option IslMap) (d : Nat)
    (h : trivialCheck E (some p) d = (q, false)) :
    d < p.n_in ∧ p.in_name = none ∧ ¬ TrivialDim p d := by
  have hd := trivialCheck_lt E p d q h
  obtain ⟨proj1, b, -, hc, hb, hnamed, -⟩ := trivialCheck_of_lt E p d hd
  rw [h] at hc
  simp only [Prod.mk.injEq] at hc
  obtain ⟨-, h2⟩ := hc
  subst h2
  have hname : p.in_name = none := by
    by_contra hne
    exact absurd (hnamed hne) (by simp)
  exact ⟨hd, hname, fun ht => absurd ((hb hname).2 ht) (by simp)⟩

theorem eliminatedDims_nil (E : IslEquality) (p : IslMap) : eliminatedDims E [] p = [] :=
  rfl

theorem eliminatedDims_cons_skip (E : IslEquality) (i : Nat) (t : SpaceTime)
    (rest : List (Nat × SpaceTime)) (p : IslMap) (ht : isTemporalTag t = false) :
    eliminatedDims E ((i, t) :: rest) p = eliminatedDims E rest p := by
  simp only [eliminatedDims, eliminatedDimsPtr, ht, Bool.not_false, if_true]

theorem eliminatedDims_cons_elim (E : IslEquality) (i : Nat) (t : SpaceTime)
    (rest : List (Nat × SpaceTime)) (p proj : IslMap) (ht : isTemporalTag t = true)
    (hc : trivialCheck E (some p) i = (some proj, true)) :
    eliminatedDims E ((i, t) :: rest) p = i :: eliminatedDims E rest proj := by
  simp only [eliminatedDims, eliminatedDimsPtr, ht, Bool.not_true, Bool.false_eq_true, if_false,
    hc]

theorem eliminatedDims_cons_stop (E : IslEquality) (i : Nat) (t : SpaceTime)
    (rest : List (Nat × SpaceTime)) (p : IslMap) (q : Option IslMap)
    (ht : isTemporalTag t = true) (hc : trivialCheck E (some p) i = (q, false)) :
    eliminatedDims E ((i, t) :: rest) p = [] := by
  simp only [eliminatedDims, eliminatedDimsPtr, ht, Bool.not_true, Bool.false_eq_true, if_false,
    hc]

/-- The tags the loop ends with are the tags it started with, without those
at the eliminated indices. -/
theorem scanLoop_tags_eq (E : IslEquality) (pairs : List (Nat × SpaceTime)) :
    ∀ (p : IslMap) (tags : List SpaceTime) (p1 : IslMap) (tags1 : List SpaceTime)
      (stop : Option Nat), scanLoop E pairs p tags = some (p1, tags1, stop) →
        tags1 = (eliminatedDims E pairs p).foldl List.eraseIdx tags := by
  induction pairs with
  | nil =>
    intro p tags p1 tags1 stop h
    simp only [scanLoop_nil, Option.some.injEq, Prod.mk.injEq] at h
    simp [eliminatedDims_nil, h.2.1]
  | cons e pairs ih =>
    intro p tags p1 tags1 stop h
    obtain ⟨i, t⟩ := e
    by_cases ht : isTemporalTag t = true
    · rcases hc : trivialCheck E (some p) i with ⟨q, b⟩
      cases b with
      | true =>
        cases q with
        | none =>
          rw [scanLoop_cons_null E _ _ _ _ _ ht hc] at h
          cases h
        | some proj =>
          rw [scanLoop_cons_elim E _ _ _ _ _ _ ht hc] at h
          rw [eliminatedDims_cons_elim E _ _ _ _ _ ht hc, List.foldl_cons]
          exact ih _ _ _ _ _ h
      | false =>
        rw [scanLoop_cons_stop E _ _ _ _ _ _ ht hc] at h
        simp only [Option.some.injEq, Prod.mk.injEq] at h
        rw [eliminatedDims_cons_stop E _ _ _ _ _ ht hc]
        simp [h.2.1]
    · have hf : isTemporalTag t = false := by simpa using ht
      rw [scanLoop_cons_skip E _ _ _ _ _ hf] at h
      rw [eliminatedDims_cons_skip E _ _ _ _ hf]
      exact ih _ _ _ _ _ h

theorem eliminatedDimsPtr_temporal (E : IslEquality) (pairs : List (Nat × SpaceTime)) :
    ∀ (q : Option IslMap), ∀ d ∈ eliminatedDimsPtr E pairs q,
      ∃ t, (d, t) ∈ pairs ∧ isTemporalTag t = true := by
  induction pairs with
  | nil =>
    intro q d hd
    simp [eliminatedDimsPtr] at hd
  | cons e pairs ih =>
    intro q d hd
    obtain ⟨i, t⟩ := e
    by_cases ht : isTemporalTag t = true
    · simp only [eliminatedDimsPtr, ht, Bool.not_true, Bool.false_eq_true, if_false] at hd
      rcases hc : trivialCheck E q i with ⟨q1, b⟩
      cases b with
      | true =>
        simp only [hc, List.mem_cons] at hd
        rcases hd with h1 | h1
        · exact ⟨t, by rw [h1]; exact List.mem_cons_self _ _, ht⟩
        · obtain ⟨t1, h2, h3⟩ := ih q1 d h1
          exact ⟨t1, List.mem_cons_of_mem _ h2, h3⟩
      | false => simp [hc] at hd
    · have hf : isTemporalTag t = false := by simpa using ht
      simp only [eliminatedDimsPtr, hf, Bool.not_false, if_true] at hd
      obtain ⟨t1, h2, h3⟩ := ih q d hd
      exact ⟨t1, List.mem_cons_of_mem _ h2, h3⟩

/-- Every eliminated index is the index of a pair with a tag of the temporal
class. -/
theorem eliminatedDims_temporal (E : IslEquality) (pairs : List (Nat × SpaceTime))
    (p : IslMap) : ∀ d ∈ eliminatedDims E pairs p,
      ∃ t, (d, t) ∈ pairs ∧ isTemporalTag t = true :=
  eliminatedDimsPtr_temporal E pairs (some p)

/-- Started on a relation with an unnamed input tuple, the loop ends with a
relation that, on the domain of the relation it started with, relates a point
without its eliminated coordinates to the addresses of the point. -/
theorem scanLoop_rel (E : IslEquality) (pairs : List (Nat × SpaceTime)) :
    ∀ (p : IslMap) (tags : List SpaceTime) (p1 : IslMap) (tags1 : List SpaceTime)
      (stop : Option Nat), p.in_name = none →
        scanLoop E pairs p tags = some (p1, tags1, stop) →
          ∀ x a, (∃ b, p.rel x b) →
            (p1.rel (dropAll (eliminatedDims E pairs p) x) a ↔ p.rel x a) := by
  induction pairs with
  | nil =>
    intro p tags p1 tags1 stop _ h x a _
    simp only [scanLoop_nil, Option.some.injEq, Prod.mk.injEq] at h
    simp [eliminatedDims_nil, dropAll, h.1]
  | cons e pairs ih =>
    intro p tags p1 tags1 stop hname h x a hx
    obtain ⟨i, t⟩ := e
    by_cases ht : isTemporalTag t = true
    · rcases hc : trivialCheck E (some p) i with ⟨q, b⟩
      cases b with
      | true =>
        cases q with
        | none =>
          rw [scanLoop_cons_null E _ _ _ _ _ ht hc] at h
          cases h
        | some proj =>
          rw [scanLoop_cons_elim E _ _ _ _ _ _ ht hc] at h
          rw [eliminatedDims_cons_elim E _ _ _ _ _ ht hc]
          obtain ⟨-, htriv, h0, hr⟩ := trivialCheck_true E p proj i hname hc
          obtain ⟨b0, hb0⟩ := hx
          have hdom : ∃ b, proj.rel (dropDims x i 1) b := ⟨b0, (hr _ _).2 ⟨x, hb0, rfl⟩⟩
          have hih := ih proj _ _ _ _ h0 h (dropDims x i 1) a hdom
          simp only [dropAll, List.foldl_cons] at hih ⊢
          rw [hih, hr]
          constructor
          · rintro ⟨x0, hx0, heq⟩
            exact htriv x x0 a b0 hb0 hx0 heq
          · intro hxa
            exact ⟨x, hxa, rfl⟩
      | false =>
        rw [scanLoop_cons_stop E _ _ _ _ _ _ ht hc] at h
        simp only [Option.some.injEq, Prod.mk.injEq] at h
        rw [eliminatedDims_cons_stop E _ _ _ _ _ ht hc]
        simp [dropAll, h.1]
    · have hf : isTemporalTag t = false := by simpa using ht
      rw [scanLoop_cons_skip E _ _ _ _ _ hf] at h
      rw [eliminatedDims_cons_skip E _ _ _ _ hf]
      exact ih _ _ _ _ _ hname h x a hx

theorem isSpatialTag_eq (t : SpaceTime) : isSpatialTag t = !isTemporalTag t := by
  cases t <;> rfl

theorem take_dropDims (x : List Int) (e k : Nat) (h : k ≤ e) :
    (dropDims x e 1).take k = x.take k := by
  unfold dropDims
  by_cases hx : e ≤ x.length
  · rw [List.take_append_of_le_length (by rw [List.length_take]; omega), List.take_take]
    congr 1
    omega
  · rw [List.take_of_length_le (by omega : x.length ≤ e),
      List.drop_of_length_le (by omega : x.length ≤ e + 1), List.append_nil]

theorem take_dropAll (ds : List Nat) (k : Nat) :
    (∀ e ∈ ds, k ≤ e) → ∀ x : List Int, (dropAll ds x).take k = x.take k := by
  induction ds with
  | nil =>
    intro _ x
    rfl
  | cons e ds ih =>
    intro h x
    have h1 := ih (fun e1 he1 => h e1 (List.mem_cons_of_mem _ he1)) (dropDims x e 1)
    simp only [dropAll, List.foldl_cons] at h1 ⊢
    rw [h1, take_dropDims x e k (h e (List.mem_cons_self _ _))]

/-- When the loop stops at `d`, the dimension `d` and the dimensions outer to
it keep their tags and their places: every eliminated index is above `d`. -/
theorem scanLoop_stop_outer (E : IslEquality) (l : List SpaceTime) :
    ∀ (p : IslMap) (s : List SpaceTime) (p1 : IslMap) (tags1 : List SpaceTime) (d : Nat),
      scanLoop E l.enum.reverse p (l ++ s) = some (p1, tags1, some d) →
        d < l.length ∧ tags1.take (d + 1) = (l ++ s).take (d + 1) ∧
          ∀ e ∈ eliminatedDims E l.enum.reverse p, d < e := by
  induction l using List.reverseRecOn with
  | nil =>
    intro p s p1 tags1 d h
    simp [scanLoop_nil] at h
  | append_singleton l a ih =>
    intro p s p1 tags1 d h
    rw [enum_reverse_concat, List.append_assoc, List.singleton_append] at h
    rw [enum_reverse_concat, List.append_assoc, List.singleton_append, List.length_append,
      List.length_singleton]
    by_cases ht : isTemporalTag a = true
    · rcases hc : trivialCheck E (some p) l.length with ⟨q, b⟩
      cases b with
      | true =>
        cases q with
        | none =>
          rw [scanLoop_cons_null E _ _ _ _ _ ht hc] at h
          cases h
        | some proj =>
          rw [scanLoop_cons_elim E _ _ _ _ _ _ ht hc, eraseIdx_length_append] at h
          rw [eliminatedDims_cons_elim E _ _ _ _ _ ht hc]
          obtain ⟨h1, h2, h3⟩ := ih proj s p1 tags1 d h
          refine ⟨by omega, ?_, ?_⟩
          · rw [h2, List.take_append_of_le_length (by omega),
              List.take_append_of_le_length (by omega)]
          · intro e he
            simp only [List.mem_cons] at he
            rcases he with h4 | h4
            · omega
            · exact h3 e h4
      | false =>
        rw [scanLoop_cons_stop E _ _ _ _ _ _ ht hc] at h
        simp only [Option.some.injEq, Prod.mk.injEq] at h
        rw [eliminatedDims_cons_stop E _ _ _ _ _ ht hc]
        obtain ⟨-, h2, h3⟩ := h
        subst h2
        subst h3
        exact ⟨by omega, rfl, by simp⟩
    · have hf : isTemporalTag a = false := by simpa using ht
      rw [scanLoop_cons_skip E _ _ _ _ _ hf] at h
      rw [eliminatedDims_cons_skip E _ _ _ _ hf]
      obtain ⟨h1, h2, h3⟩ := ih p (a :: s) p1 tags1 d h
      exact ⟨by omega, h2, h3⟩

/-- When the loop runs to its end, the tags left are those that are not of
the temporal class. -/
theorem scanLoop_none_tags (E : IslEquality) (l : List SpaceTime) :
    ∀ (p : IslMap) (s : List SpaceTime) (p1 : IslMap) (tags1 : List SpaceTime),
      scanLoop E l.enum.reverse p (l ++ s) = some (p1, tags1, none) →
        tags1 = l.filter (fun t => !isTemporalTag t) ++ s := by
  induction l using List.reverseRecOn with
  | nil =>
    intro p s p1 tags1 h
    simp only [List.enum_nil, List.reverse_nil, scanLoop_nil, List.nil_append,
      Option.some.injEq, Prod.mk.injEq] at h
    simp [h.2.1]
  | append_singleton l a ih =>
    intro p s p1 tags1 h
    rw [enum_reverse_concat, List.append_assoc, List.singleton_append] at h
    by_cases ht : isTemporalTag a = true
    · rcases hc : trivialCheck E (some p) l.length with ⟨q, b⟩
      cases b with
      | true =>
        cases q with
        | none =>
          rw [scanLoop_cons_null E _ _ _ _ _ ht hc] at h
          cases h
        | some proj =>
          rw [scanLoop_cons_elim E _ _ _ _ _ _ ht hc, eraseIdx_length_append] at h
          rw [ih proj s p1 tags1 h]
          simp [List.filter_append, ht]
      | false =>
        rw [scanLoop_cons_stop E _ _ _ _ _ _ ht hc] at h
        simp at h
    · have hf : isTemporalTag a = false := by simpa using ht
      rw [scanLoop_cons_skip E _ _ _ _ _ hf] at h
      rw [ih p (a :: s) p1 tags1 h]
      simp [List.filter_append, hf]

/-- The tags the loop ends with are a sublist of the tags it started with
and hold all of their `Spatial` and `PipelineSpatial` tags, in order. -/
theorem scanLoop_sublist (E : IslEquality) (l : List SpaceTime) :
    ∀ (p : IslMap) (s : List SpaceTime) (p1 : IslMap) (tags1 : List SpaceTime)
      (stop : Option Nat), scanLoop E l.enum.reverse p (l ++ s) = some (p1, tags1, stop) →
        ∃ l1, tags1 = l1 ++ s ∧ l1.Sublist l ∧
          l1.filter isSpatialTag = l.filter isSpatialTag := by
  induction l using List.reverseRecOn with
  | nil =>
    intro p s p1 tags1 stop h
    simp only [List.enum_nil, List.reverse_nil, scanLoop_nil, List.nil_append,
      Option.some.injEq, Prod.mk.injEq] at h
    exact ⟨[], by simp [h.2.1], List.Sublist.refl _, rfl⟩
  | append_singleton l a ih =>
    intro p s p1 tags1 stop h
    rw [enum_reverse_concat, List.append_assoc, List.singleton_append] at h
    by_cases ht : isTemporalTag a = true
    · rcases hc : trivialCheck E (some p) l.length with ⟨q, b⟩
      cases b with
      | true =>
        cases q with
        | none =>
          rw [scanLoop_cons_null E _ _ _ _ _ ht hc] at h
          cases h
        | some proj =>
          rw [scanLoop_cons_elim E _ _ _ _ _ _ ht hc, eraseIdx_length_append] at h
          obtain ⟨l1, h1, h2, h3⟩ := ih proj s p1 tags1 stop h
          refine ⟨l1, h1, h2.trans (List.sublist_append_left _ _), ?_⟩
          rw [h3, List.filter_append]
          simp [isSpatialTag_eq, ht]
      | false =>
        rw [scanLoop_cons_stop E _ _ _ _ _ _ ht hc] at h
        simp only [Option.some.injEq, Prod.mk.injEq] at h
        exact ⟨l ++ [a], by simp [h.2.1], List.Sublist.refl _, rfl⟩
    · have hf : isTemporalTag a = false := by simpa using ht
      rw [scanLoop_cons_skip E _ _ _ _ _ hf] at h
      obtain ⟨l1, h1, h2, h3⟩ := ih p (a :: s) p1 tags1 stop h
      refine ⟨l1 ++ [a], by simp [h1], List.Sublist.append_right h2 _, ?_⟩
      rw [List.filter_append, List.filter_append, h3]

/-- When the innermost dimension of the temporal class fails the check, the
loop stops there with the relation and the tags it started with. -/
theorem scanLoop_stop_innermost (E : IslEquality) (l s : List SpaceTime) (a : SpaceTime)
    (p : IslMap) (q : Option IslMap) (ha : isTemporalTag a = true)
    (hs : ∀ t ∈ s, isTemporalTag t = false)
    (hc : trivialCheck E (some p) l.length = (q, false)) :
    scanLoop E (l ++ a :: s).enum.reverse p (l ++ a :: s) =
      some (p, l ++ a :: s, some l.length) := by
  rw [List.enum_append, List.reverse_append, List.enumFrom_cons, List.reverse_cons,
    List.append_assoc, List.singleton_append,
    scanLoop_skip E _ _ _ _ (enumFrom_reverse_tags _ s hs)]
  exact scanLoop_cons_stop E _ _ _ _ _ _ ha hc

theorem FillFromOccupancy_scan (E : IslEquality) (occ : Occupancy) (multi : Bool)
    (eff : Occupancy) (fill : Fill) (h : FillFromOccupancy E occ multi = some (eff, fill)) :
    fill.dim_in_tags = eff.dim_in_tags ∧
      ∃ stop, scanLoop E occ.dim_in_tags.enum.reverse occ.map occ.dim_in_tags =
        some (eff.map, eff.dim_in_tags, stop) := by
  cases hs : scanLoop E occ.dim_in_tags.enum.reverse occ.map occ.dim_in_tags with
  | none => simp [FillFromOccupancy, hs] at h
  | some r =>
    obtain ⟨p1, tags1, stop⟩ := r
    cases stop with
    | none =>
      simp only [FillFromOccupancy, hs, Option.some.injEq, Prod.mk.injEq] at h
      obtain ⟨h1, h2⟩ := h
      subst h1
      subst h2
      exact ⟨rfl, none, rfl⟩
    | some d =>
      simp only [FillFromOccupancy, hs] at h
      cases hf : fillAt p1 d multi with
      | none => simp [hf] at h
      | some f =>
        simp only [hf, Option.some.injEq, Prod.mk.injEq] at h
        obtain ⟨h1, h2⟩ := h
        subst h1
        subst h2
        exact ⟨rfl, some d, rfl⟩

theorem eq_of_dropDims_eq (x x0 : List Int) (d : Nat) (hl : x.length = x0.length)
    (hd : x[d]? = x0[d]?) (h : dropDims x d 1 = dropDims x0 d 1) : x = x0 := by
  unfold dropDims at h
  obtain ⟨h1, h2⟩ := List.append_inj h (by simp [List.length_take, hl])
  apply List.ext_getElem?
  intro n
  rcases Nat.lt_trichotomy n d with hn | hn | hn
  · have e1 : x[n]? = (List.take d x)[n]? := (List.getElem?_take_of_lt hn).symm
    have e2 : x0[n]? = (List.take d x0)[n]? := (List.getElem?_take_of_lt hn).symm
    rw [e1, e2, h1]
  · rw [hn]
    exact hd
  · have hn1 : d + 1 + (n - (d + 1)) = n := by omega
    have e1 : x[n]? = (List.drop (d + 1) x)[n - (d + 1)]? := by
      rw [List.getElem?_drop, hn1]
    have e2 : x0[n]? = (List.drop (d + 1) x0)[n - (d + 1)]? := by
      rw [List.getElem?_drop, hn1]
    rw [e1, e2, h2]

/-- A dimension with one value over the domain passes the check. -/
theorem trivialDim_of_singleValued (p : IslMap) (d : Nat) (h : SingleValued p d) :
    TrivialDim p d := by
  obtain ⟨v, hv⟩ := h
  intro x x0 y y0 hx hx0 hd
  have heq : x = x0 := by
    apply eq_of_dropDims_eq x x0 d _ _ hd
    · rw [(p.wf x y0 hx).1, (p.wf x0 y hx0).1]
    · rw [hv x y0 hx, hv x0 y hx0]
  rw [heq]
  exact hx0

theorem not_singleValued_ij_0 : ¬ SingleValued map_ij_to_j 0 := by
  rintro ⟨v, hv⟩
  have h0 := hv [0, 0] [0] ⟨0, 0, rfl, rfl⟩
  have h1 := hv [1, 0] [0] ⟨1, 0, rfl, rfl⟩
  simp only [List.getElem?_cons_zero, Option.some.injEq] at h0 h1
  omega

/-! ## Claims on the loop of `FillFromOccupancy` -/

/-- On an occupancy whose relation has an unnamed input tuple, elimination
loses nothing: when `FillFromOccupancy` returns, the tags of the effective
occupancy are the input tags without those at the eliminated indices, and
for every point `x` of the domain of the input occupancy, the effective
occupancy relates `x` without its eliminated coordinates to exactly the
addresses the input occupancy relates to `x`. -/
theorem unnamed_elimination_keeps_addresses (E : IslEquality) (occ : Occupancy)
    (multi : Bool) (eff : Occupancy) (fill : Fill) (hname : occ.map.in_name = none)
    (h : FillFromOccupancy E occ multi = some (eff, fill)) :
    eff.dim_in_tags =
        (eliminatedDims E occ.dim_in_tags.enum.reverse occ.map).foldl List.eraseIdx
          occ.dim_in_tags ∧
      ∀ x a, (∃ b, occ.map.rel x b) →
        (eff.map.rel (dropAll (eliminatedDims E occ.dim_in_tags.enum.reverse occ.map) x) a ↔
          occ.map.rel x a) := by
  obtain ⟨-, stop, hs⟩ := FillFromOccupancy_scan E occ multi eff fill h
  exact ⟨scanLoop_tags_eq E _ _ _ _ _ _ hs, scanLoop_rel E _ _ _ _ _ _ hname hs⟩

/-- Claim C14 on the occupancy `{S(t) -> t}` with `t` tagged `Temporal`:
`FillFromOccupancy` eliminates dimension 0 and returns `{() -> o}` with no
tag; the point `(0)` of the domain, which the input relates to address 0
only, is without its eliminated coordinate the empty tuple, which the
effective occupancy relates to address 1 as well. -/
theorem named_tuple_elimination_adds_addresses (E : IslEquality)
    (multi_loop_reuse : Bool) :
    FillFromOccupancy E occ_S_t multi_loop_reuse =
        some (⟨[], map_unit_to_all⟩, ⟨[], map_unit_to_all⟩) ∧
      eliminatedDims E occ_S_t.dim_in_tags.enum.reverse occ_S_t.map = [0] ∧
      occ_S_t.map.rel [0] [0] ∧
      ¬ occ_S_t.map.rel [0] [1] ∧
      map_unit_to_all.rel (dropAll [0] [0]) [1] := by
  refine ⟨fill_occ_S_t E multi_loop_reuse, ?_, ⟨0, rfl, rfl⟩, ?_, ⟨rfl, 1, rfl⟩⟩
  · exact (eliminatedDims_cons_elim E 0 .Temporal [] map_S_t_to_t map_unit_to_all rfl
      (trivialCheck_S_t E)).trans rfl
  · rintro ⟨t, h1, h2⟩
    simp only [List.cons.injEq, and_true] at h1 h2
    omega

/-- When the loop of `FillFromOccupancy` stops at dimension `d`, single-loop
`FillFromOccupancy` returns the relation and tags of that moment; the tags at
the indices up to `d` are those of the input, every eliminated index is above
`d`, and dropping the eliminated coordinates leaves the coordinates up to `d`
of every point in place. -/
theorem scan_stop_keeps_outer (E : IslEquality) (occ : Occupancy) (p1 : IslMap)
    (tags1 : List SpaceTime) (d : Nat)
    (h : scanLoop E occ.dim_in_tags.enum.reverse occ.map occ.dim_in_tags =
      some (p1, tags1, some d)) :
    (∃ f, FillFromOccupancy E occ false = some (⟨tags1, p1⟩, ⟨tags1, f⟩)) ∧
      d < occ.dim_in_tags.length ∧
      tags1.take (d + 1) = occ.dim_in_tags.take (d + 1) ∧
      (∀ e ∈ eliminatedDims E occ.dim_in_tags.enum.reverse occ.map, d < e) ∧
      ∀ x : List Int,
        (dropAll (eliminatedDims E occ.dim_in_tags.enum.reverse occ.map) x).take (d + 1) =
          x.take (d + 1) := by
  obtain ⟨f, hf, -⟩ := FillFromOccupancy_of_scan_stop E occ p1 tags1 d h
  have h0 : scanLoop E occ.dim_in_tags.enum.reverse occ.map (occ.dim_in_tags ++ []) =
      some (p1, tags1, some d) := by
    rw [List.append_nil]
    exact h
  obtain ⟨h1, h2, h3⟩ := scanLoop_stop_outer E occ.dim_in_tags occ.map [] p1 tags1 d h0
  rw [List.append_nil] at h2
  exact ⟨⟨f, hf⟩, h1, h2, h3, take_dropAll _ (d + 1) (fun e he => h3 e he)⟩

/-- On an occupancy whose relation has an unnamed input tuple, when the
relation depends on its innermost dimension of the temporal class, the
effective occupancy of single-loop `FillFromOccupancy` is the input
occupancy. -/
theorem unnamed_innermost_nontrivial_stops (E : IslEquality) (occ : Occupancy)
    (l s : List SpaceTime) (a : SpaceTime) (htags : occ.dim_in_tags = l ++ a :: s)
    (ha : isTemporalTag a = true) (hs : ∀ t ∈ s, isTemporalTag t = false)
    (hname : occ.map.in_name = none) (hd : l.length < occ.map.n_in)
    (hn : ¬ TrivialDim occ.map l.length) :
    ∃ fill, FillFromOccupancy E occ false = some (occ, fill) ∧
      fill.dim_in_tags = occ.dim_in_tags := by
  obtain ⟨proj, b, -, hc, hb, -⟩ := trivialCheck_of_lt E occ.map l.length hd
  cases b with
  | true => exact absurd ((hb hname).1 rfl) hn
  | false =>
    have hscan := scanLoop_stop_innermost E l s a occ.map _ ha hs hc
    rw [← htags] at hscan
    obtain ⟨f, hf, -⟩ :=
      FillFromOccupancy_of_scan_stop E occ occ.map occ.dim_in_tags l.length hscan
    exact ⟨⟨occ.dim_in_tags, f⟩, hf, rfl⟩

/-- Claim C15 on the occupancy `{S(t) -> t}` with `t` tagged `Temporal`:
dimension 0 is the innermost dimension of the temporal class, the relation
depends on it and it takes more than one value, and `FillFromOccupancy` does
not stop at it: the effective occupancy has no tag and no input dimension,
and is not the input occupancy. -/
theorem named_tuple_nontrivial_dim_eliminated (E : IslEquality) (multi_loop_reuse : Bool) :
    occ_S_t.dim_in_tags = [.Temporal] ∧
      ¬ TrivialDim occ_S_t.map 0 ∧
      ¬ SingleValued occ_S_t.map 0 ∧
      ∃ eff fill, FillFromOccupancy E occ_S_t multi_loop_reuse = some (eff, fill) ∧
        eff.dim_in_tags = [] ∧ eff.map.n_in = 0 ∧ eff.dim_in_tags ≠ occ_S_t.dim_in_tags ∧
        eff.map ≠ occ_S_t.map := by
  have hn : ¬ TrivialDim occ_S_t.map 0 := by
    intro h
    have h1 : map_S_t_to_t.rel [0] [1] :=
      h [0] [1] [1] [0] ⟨0, rfl, rfl⟩ ⟨1, rfl, rfl⟩ (by simp [dropDims])
    obtain ⟨t, h2, h3⟩ := h1
    simp only [List.cons.injEq, and_true] at h2 h3
    omega
  refine ⟨rfl, hn, fun h => hn (trivialDim_of_singleValued _ _ h),
    ⟨[], map_unit_to_all⟩, ⟨[], map_unit_to_all⟩, fill_occ_S_t E multi_loop_reuse, rfl, rfl,
    by simp [occ_S_t], ?_⟩
  intro h
  have h2 : map_unit_to_all.n_in = map_S_t_to_t.n_in := congrArg IslMap.n_in h
  exact absurd h2 (by decide)

/-- Claim C16: when the loop of `FillFromOccupancy` runs to its end without
stopping, the function returns the same relation and the same tag list as
effective occupancy and as fill, and no tag of that list is `Temporal`,
`Sequential` or `PipelineTemporal`. -/
theorem no_stop_fill_is_occupancy (E : IslEquality) (occ : Occupancy) (multi : Bool)
    (p1 : IslMap) (tags1 : List SpaceTime)
    (h : scanLoop E occ.dim_in_tags.enum.reverse occ.map occ.dim_in_tags =
      some (p1, tags1, none)) :
    FillFromOccupancy E occ multi = some (⟨tags1, p1⟩, ⟨tags1, p1⟩) ∧
      ∀ t ∈ tags1, t ≠ .Temporal ∧ t ≠ .Sequential ∧ t ≠ .PipelineTemporal := by
  refine ⟨FillFromOccupancy_of_scan_none E occ multi p1 tags1 h, ?_⟩
  have h0 : scanLoop E occ.dim_in_tags.enum.reverse occ.map (occ.dim_in_tags ++ []) =
      some (p1, tags1, none) := by
    rw [List.append_nil]
    exact h
  have ht := scanLoop_none_tags E occ.dim_in_tags occ.map [] p1 tags1 h0
  rw [List.append_nil] at ht
  intro t hmem
  rw [ht, List.mem_filter] at hmem
  have hf : isTemporalTag t = false := by simpa using hmem.2
  cases t <;> simp [isTemporalTag] at hf ⊢

theorem no_stop_fill_is_occupancy_witness :
    FillFromOccupancy (IslEquality.ofDecEq (Classical.decEq IslMap)) (occ_ij .Spatial) false =
        some (⟨[.Spatial], map_t_to_t⟩, ⟨[.Spatial], map_t_to_t⟩) ∧
      ∀ t ∈ [SpaceTime.Spatial], t ≠ .Temporal ∧ t ≠ .Sequential ∧ t ≠ .PipelineTemporal :=
  no_stop_fill_is_occupancy _ (occ_ij .Spatial) false map_t_to_t [.Spatial]
    (scanLoop_occ_ij_spatial _ .Spatial rfl)

/-- Claim C17: when `FillFromOccupancy` returns, the fill carries the tag
list of the effective occupancy; that list is a sublist of the input tag
list with the same `Spatial` and `PipelineSpatial` tags in the same order;
it is the input list without the tags at the eliminated indices, and each of
those is `Temporal`, `Sequential` or `PipelineTemporal`. -/
theorem spatial_tags_never_eliminated (E : IslEquality) (occ : Occupancy) (multi : Bool)
    (eff : Occupancy) (fill : Fill) (h : FillFromOccupancy E occ multi = some (eff, fill)) :
    fill.dim_in_tags = eff.dim_in_tags ∧
      eff.dim_in_tags.Sublist occ.dim_in_tags ∧
      eff.dim_in_tags.filter isSpatialTag = occ.dim_in_tags.filter isSpatialTag ∧
      eff.dim_in_tags =
        (eliminatedDims E occ.dim_in_tags.enum.reverse occ.map).foldl List.eraseIdx
          occ.dim_in_tags ∧
      ∀ d ∈ eliminatedDims E occ.dim_in_tags.enum.reverse occ.map,
        ∃ t, occ.dim_in_tags[d]? = some t ∧
          (t = .Temporal ∨ t = .Sequential ∨ t = .PipelineTemporal) := by
  obtain ⟨hfill, stop, hs⟩ := FillFromOccupancy_scan E occ multi eff fill h
  have h0 : scanLoop E occ.dim_in_tags.enum.reverse occ.map (occ.dim_in_tags ++ []) =
      some (eff.map, eff.dim_in_tags, stop) := by
    rw [List.append_nil]
    exact hs
  obtain ⟨l1, h1, h2, h3⟩ := scanLoop_sublist E occ.dim_in_tags occ.map [] _ _ _ h0
  rw [List.append_nil] at h1
  refine ⟨hfill, by rw [h1]; exact h2, by rw [h1]; exact h3,
    scanLoop_tags_eq E _ _ _ _ _ _ hs, ?_⟩
  intro d hd
  obtain ⟨t, hmem, ht⟩ := eliminatedDims_temporal E _ _ d hd
  rw [List.mem_reverse, List.mk_mem_enum_iff_getElem?] at hmem
  refine ⟨t, hmem, ?_⟩
  cases t <;> simp [isTemporalTag] at ht ⊢

theorem spatial_tags_never_eliminated_witness :
    FillFromOccupancy (IslEquality.ofDecEq (Classical.decEq IslMap)) (occ_ij .Spatial) false =
        some (⟨[.Spatial], map_t_to_t⟩, ⟨[.Spatial], map_t_to_t⟩) ∧
      [SpaceTime.Spatial].Sublist [SpaceTime.Temporal, SpaceTime.Spatial] ∧
      [SpaceTime.Spatial].filter isSpatialTag =
        [SpaceTime.Temporal, SpaceTime.Spatial].filter isSpatialTag :=
  ⟨fill_occ_ij_spatial _ .Spatial rfl false,
    (spatial_tags_never_eliminated (IslEquality.ofDecEq (Classical.decEq IslMap))
      (occ_ij .Spatial) false _ _ (fill_occ_ij_spatial _ .Spatial rfl false)).2.1,
    (spatial_tags_never_eliminated (IslEquality.ofDecEq (Classical.decEq IslMap))
      (occ_ij .Spatial) false _ _ (fill_occ_ij_spatial _ .Spatial rfl false)).2.2.1⟩

/-- On a dimension `d` of a relation with an unnamed input tuple, the check
of lines 76-84 succeeds exactly when the relation does not depend on `d` on
its domain (two points of the domain that differ at most in coordinate `d`
have the same images); a dimension that has one value over the whole domain
is such a dimension. -/
theorem unnamed_check_iff_independent (E : IslEquality) (p : IslMap) (d : Nat)
    (h : d < p.n_in) (hname : p.in_name = none) :
    ∃ proj b, trivialCheck E (some p) d = (some proj, b) ∧ (b = true ↔ TrivialDim p d) ∧
      (SingleValued p d → b = true) := by
  obtain ⟨proj, b, -, hc, hb, -⟩ := trivialCheck_of_lt E p d h
  exact ⟨proj, b, hc, hb hname, fun hs => (hb hname).2 (trivialDim_of_singleValued p d hs)⟩

/-- Claim C18 on dimension 0 of `{(i, j) -> j}`, with `i` tagged `Temporal`
and `j` tagged `Spatial`: every call of the check succeeds, the check of
lines 76-84 succeeds and the loop eliminates `i`, and `i` does not equal a
single value on the domain: it takes the values 0 and 1. -/
theorem trivial_check_succeeds_on_many_values (E : IslEquality) :
    trivialCheck E (some map_ij_to_j) 0 = (some map_t_to_t, true) ∧
      scanLoop E (occ_ij .Spatial).dim_in_tags.enum.reverse (occ_ij .Spatial).map
          (occ_ij .Spatial).dim_in_tags = some (map_t_to_t, [.Spatial], none) ∧
      eliminatedDims E (occ_ij .Spatial).dim_in_tags.enum.reverse (occ_ij .Spatial).map = [0] ∧
      (∃ a, map_ij_to_j.rel [0, 0] a) ∧ (∃ a, map_ij_to_j.rel [1, 0] a) ∧
      ¬ SingleValued map_ij_to_j 0 := by
  refine ⟨trivialCheck_ij_0 E, scanLoop_occ_ij_spatial E .Spatial rfl, ?_,
    ⟨[0], 0, 0, rfl, rfl⟩, ⟨[0], 1, 0, rfl, rfl⟩, not_singleValued_ij_0⟩
  have e : (occ_ij .Spatial).dim_in_tags.enum.reverse = [(1, .Spatial), (0, .Temporal)] := rfl
  rw [e]
  exact (eliminatedDims_cons_skip E 1 .Spatial [(0, .Temporal)] map_ij_to_j rfl).trans
    ((eliminatedDims_cons_elim E 0 .Temporal [] map_ij_to_j map_t_to_t rfl
      (trivialCheck_ij_0 E)).trans rfl)

/-! ## Buffers of a flat loop nest -/

theorem nest_fold {Descriptor : Type} (B : List Nat) (D : List (Nat × String))
    (loops : List Descriptor) :
    ∀ (k i : Nat) (acc : List (LogicalBuffer × Nat)),
      (loops.foldl (fun state _ => BufferIterLevelsFromMapping.nestStep B D state)
          (k, i, acc)).2.2 =
        acc ++ (List.enumFrom k ((List.range' i loops.length).filter
          fun b => decide (b ∈ B))).flatMap fun kb =>
            D.map fun e => ((⟨kb.1, e.1, 0⟩ : LogicalBuffer), kb.2) := by
  induction loops with
  | nil =>
    intro k i acc
    simp
  | cons x loops ih =>
    intro k i acc
    rw [List.foldl_cons, List.length_cons, List.range'_succ]
    show (loops.foldl (fun state _ => BufferIterLevelsFromMapping.nestStep B D state)
      (BufferIterLevelsFromMapping.nestStep B D (k, i, acc))).2.2 = _
    by_cases hb : i ∈ B
    · have hstep : BufferIterLevelsFromMapping.nestStep B D (k, i, acc) =
          (k + 1, i + 1,
            acc ++ D.map fun e => ((⟨k, e.1, 0⟩ : LogicalBuffer), i)) := by
        simp only [BufferIterLevelsFromMapping.nestStep, if_pos hb]
      rw [hstep, ih, List.filter_cons_of_pos (by simpa using hb), List.enumFrom_cons,
        List.flatMap_cons, List.append_assoc]
    · have hstep : BufferIterLevelsFromMapping.nestStep B D (k, i, acc) = (k, i + 1, acc) := by
        simp only [BufferIterLevelsFromMapping.nestStep, if_neg hb]
      rw [hstep, ih, List.filter_cons_of_neg (by simpa using hb)]

/-- Claim C19: on a flat nest with `n` loops, the flat-nest form of
`BufferIterLevelsFromMapping` returns one pair per declared boundary below
`n` and data-space of the workload, grouped by ascending boundary: the pairs
of the boundary `b` of number `k` (from 0) have buffer id `k`, level `b` and
leaf id 0; a boundary declared twice counts once and a boundary at or
beyond `n` gives no pair. -/
theorem flat_nest_buffer_iter_levels {Descriptor : Type} (nest : Nest Descriptor)
    (workload : Workload) :
    BufferIterLevelsFromMapping.ofNest nest workload =
      nestPairs nest.loops.length nest.storage_tiling_boundaries
        workload.GetShape.DataSpaceIDToName := by
  unfold BufferIterLevelsFromMapping.ofNest nestPairs
  rw [nest_fold, List.nil_append, List.range_eq_range', List.enum]

/-- The flat-nest form on three loops with the boundaries 2, 0, 0 and 5 and
two data-spaces: boundary 0 is buffer 0, boundary 2 is buffer 1, and the
boundary 5 and the second declaration of 0 give nothing. -/
theorem flat_nest_three_loops :
    BufferIterLevelsFromMapping.ofNest nest_three_loops workload_ab =
      [(⟨0, 0, 0⟩, 0), (⟨0, 1, 0⟩, 0), (⟨1, 0, 0⟩, 2), (⟨1, 1, 0⟩, 2)] := by
  decide

end Timeloop
